import Mathlib

/-!
# Verification of the blockdag-sim repository

Shallow embedding of the two discrete-event simulations of the repository:

* mode A, the Tangle-style simulation (`src/tangle_sim.cpp`, in its current
  revision that tracks `tip_ratio` and `messages_sent`), and
* mode B, the witness-based simulation (`witness_sim.cpp`).

Modelling conventions, applied uniformly:

* C++ `double` quantities (simulation time, timestamps, delays, probabilities,
  weights) are embedded as `ℚ`.  All arithmetic the claims depend on is exact
  over the values that occur (times are integers incremented by `dt = 1.0`).
* The seeded `std::mt19937` generator behind `RNG` is embedded as an abstract
  stream of raw draws together with a cursor: `uniform_double(a,b)` maps the
  next raw real draw `u ∈ [0,1)` affinely into `[a,b)`, `uniform_int(a,b)`
  reduces the next raw integer draw modulo the width of `[a,b]`.  Theorems
  quantify over all streams whose real draws lie in `[0,1)` (`RNG.Valid`), so
  they cover every possible seed.
* `std::exp` is transcendental, hence not representable by an executable `ℚ`
  function; the simulation is parametrised by a function `expFn : ℚ → ℚ`
  standing for `std::exp`.  No claim depends on the values of the weights.
* `std::unordered_set<int>` becomes `Finset ℕ`; where C++ iterates such a set
  in its unspecified order we iterate in ascending order (`Finset.sort`),
  which realises one of the admissible orders.
* The `std::priority_queue` of pending messages becomes a list; a drain step
  consumes exactly the due messages (`deliverTime ≤ now`), as the C++ loop
  does.  Due messages are applied in queue order; receipt is idempotent
  set-insertion, so this realises the heap's pop order up to the tie-breaking
  the source leaves unspecified.
* File I/O: opening the output stream is modelled by a boolean `outputOk`
  (whether `std::ofstream out(outputPath)` succeeded); the CSV rows become a
  list of structured records, headed by the literal header string.
-/

/-- Abstract stream model of the seeded `std::mt19937` behind `struct RNG`
(util.hpp): `dblStream` are the raw uniform real draws in `[0,1)`, `intStream`
the raw integer draws, `k` the position of the next draw. -/
structure RNG where
  dblStream : ℕ → ℚ
  intStream : ℕ → ℕ
  k : ℕ

/-- A stream is valid when every raw real draw lies in `[0,1)`, which is what
`std::uniform_real_distribution` produces from raw generator output. -/
def RNG.Valid (r : RNG) : Prop :=
  ∀ n, 0 ≤ r.dblStream n ∧ r.dblStream n < 1

/-- `RNG::uniform_double(a,b)`: the next value of
`std::uniform_real_distribution<double>(a,b)`, i.e. the next raw draw mapped
affinely into `[a,b)`. -/
def RNG.uniform_double (r : RNG) (a b : ℚ) : ℚ × RNG :=
  (a + (b - a) * r.dblStream r.k, ⟨r.dblStream, r.intStream, r.k + 1⟩)

/-- `RNG::uniform_int(a,b)`: the next value of
`std::uniform_int_distribution<int>(a,b)` (inclusive bounds), i.e. the next raw
integer draw reduced into `[a, b]`. -/
def RNG.uniform_int (r : RNG) (a b : ℕ) : ℕ × RNG :=
  (a + r.intStream r.k % (b + 1 - a), ⟨r.dblStream, r.intStream, r.k + 1⟩)

theorem RNG.valid_uniform_double (r : RNG) (h : r.Valid) (a b : ℚ) (hab : a ≤ b) :
    a ≤ (r.uniform_double a b).1 ∧ (a < b → (r.uniform_double a b).1 < b) := by
  obtain ⟨h0, h1⟩ := h r.k
  constructor
  · have : 0 ≤ (b - a) * r.dblStream r.k :=
      mul_nonneg (by linarith) h0
    simp only [RNG.uniform_double]
    linarith
  · intro hlt
    have : (b - a) * r.dblStream r.k < (b - a) * 1 :=
      mul_lt_mul_of_pos_left h1 (by linarith)
    simp only [RNG.uniform_double]
    linarith

theorem RNG.valid_advance (r : RNG) (h : r.Valid) (a b : ℚ) :
    (r.uniform_double a b).2.Valid := h

theorem RNG.valid_advance_int (r : RNG) (h : r.Valid) (a b : ℕ) :
    (r.uniform_int a b).2.Valid := h

theorem RNG.uniform_int_lt (r : RNG) (n : ℕ) (hn : 0 < n) :
    (r.uniform_int 0 (n - 1)).1 < n := by
  simp only [RNG.uniform_int, Nat.zero_add]
  have : n - 1 + 1 - 0 = n := by omega
  rw [this]
  exact Nat.mod_lt _ hn

/-- The cumulative-sum scan of `weighted_choice` (util.hpp): starting from
accumulator `acc` and index `i`, add each weight in turn and return the first
index whose cumulative sum is `≥ r`; if the list is exhausted, return the last
index overall (`i - 1` once `i` has passed the end). -/
def wcScan (r : ℚ) : List ℚ → ℚ → ℕ → ℕ
  | [], _, i => i - 1
  | w :: ws, acc, i => if r ≤ acc + w then i else wcScan r ws (acc + w) (i + 1)

/-- `weighted_choice(weights, rng)` (util.hpp): `-1` on an empty list; a
uniform index draw if the weights sum to `≤ 0`; otherwise a uniform real draw
`r ∈ [0, sum)` resolved through the cumulative-sum scan. -/
def weighted_choice (weights : List ℚ) (rng : RNG) : Int × RNG :=
  if weights.isEmpty then (-1, rng)
  else
    let sum := weights.foldl (· + ·) 0
    if sum ≤ 0 then
      let (k, rng') := rng.uniform_int 0 (weights.length - 1)
      ((k : Int), rng')
    else
      let (r, rng') := rng.uniform_double 0 sum
      ((wcScan r weights 0 0 : Int), rng')

/-- Cumulative sum of the first `n` weights. -/
def cumWeight (weights : List ℚ) (n : ℕ) : ℚ :=
  ((weights.take n).foldl (· + ·) 0)

theorem foldl_add_eq_sum (l : List ℚ) (a : ℚ) : l.foldl (· + ·) a = a + l.sum := by
  induction l generalizing a with
  | nil => simp
  | cons x xs ih => simp [List.foldl_cons, ih, List.sum_cons]; ring

theorem cumWeight_eq_sum (weights : List ℚ) (n : ℕ) :
    cumWeight weights n = (weights.take n).sum := by
  simp [cumWeight, foldl_add_eq_sum]

/-- The scan returns `i + j` when `j` is the least offset whose cumulative sum
reaches `r`. -/
theorem wcScan_eq_of_least (r : ℚ) :
    ∀ (ws : List ℚ) (acc : ℚ) (i j : ℕ),
      j < ws.length → r ≤ acc + (ws.take (j + 1)).sum →
      (∀ j', j' < j → ¬ r ≤ acc + (ws.take (j' + 1)).sum) →
      wcScan r ws acc i = i + j := by
  intro ws
  induction ws with
  | nil => intro acc i j hj; simp at hj
  | cons w ws ih =>
    intro acc i j hj hle hmin
    cases j with
    | zero =>
      have hr : r ≤ acc + w := by simpa using hle
      simp [wcScan, hr]
    | succ j' =>
      have hr : ¬ r ≤ acc + w := by
        have := hmin 0 (Nat.succ_pos j')
        simpa using this
      rw [wcScan, if_neg hr]
      have hgoal := ih (acc + w) (i + 1) j' (by simpa using hj)
        (by rw [List.take_succ_cons, List.sum_cons] at hle; linarith)
        (fun j'' hj'' => by
          have := hmin (j'' + 1) (by omega)
          rw [List.take_succ_cons, List.sum_cons] at this
          intro hcon; exact this (by linarith))
      omega

/-- When no cumulative sum reaches `r`, the scan falls through to the last
index. -/
theorem wcScan_eq_of_none (r : ℚ) :
    ∀ (ws : List ℚ) (acc : ℚ) (i : ℕ),
      (∀ j, j < ws.length → ¬ r ≤ acc + (ws.take (j + 1)).sum) →
      wcScan r ws acc i = i + ws.length - 1 := by
  intro ws
  induction ws with
  | nil => intro acc i _; simp [wcScan]
  | cons w ws ih =>
    intro acc i hall
    have hr : ¬ r ≤ acc + w := by
      have := hall 0 (by simp)
      simpa using this
    rw [wcScan, if_neg hr]
    have := ih (acc + w) (i + 1) (fun j hj => by
      have := hall (j + 1) (by simpa using Nat.succ_lt_succ hj)
      rw [List.take_succ_cons, List.sum_cons] at this
      intro hcon; exact this (by linarith))
    rw [this, List.length_cons]
    omega

/-- In both branches the chosen index is within `[0, n)` for a non-empty weight
list. -/
theorem weighted_choice_mem_range (weights : List ℚ) (rng : RNG) (hne : weights ≠ []) :
    0 ≤ (weighted_choice weights rng).1 ∧
      (weighted_choice weights rng).1 < (weights.length : Int) := by
  have hlen : 0 < weights.length := List.length_pos.mpr hne
  have hemp : weights.isEmpty = false := by
    cases weights with
    | nil => exact absurd rfl hne
    | cons w ws => rfl
  rw [weighted_choice, hemp]
  simp only [Bool.false_eq_true, if_false]
  by_cases hs : weights.foldl (· + ·) 0 ≤ 0
  · rw [if_pos hs]
    have := RNG.uniform_int_lt rng weights.length hlen
    constructor
    · exact Int.ofNat_nonneg _
    · exact Int.ofNat_lt.mpr this
  · rw [if_neg hs]
    have hsum : 0 < weights.sum := by
      rw [foldl_add_eq_sum, zero_add] at hs; linarith
    set r := (rng.uniform_double 0 (weights.foldl (· + ·) 0)).1 with hr
    by_cases hfind : ∃ j, j < weights.length ∧ r ≤ 0 + (weights.take (j + 1)).sum
    · classical
      obtain ⟨hj0lt, hj0le⟩ := Nat.find_spec hfind
      have heq : wcScan r weights 0 0 = 0 + Nat.find hfind :=
        wcScan_eq_of_least r weights 0 0 (Nat.find hfind) hj0lt hj0le
          (fun j' hj' hcon => Nat.find_min hfind hj' ⟨by omega, hcon⟩)
      constructor
      · exact Int.ofNat_nonneg _
      · rw [heq]
        exact Int.ofNat_lt.mpr (by omega)
    · push_neg at hfind
      have heq : wcScan r weights 0 0 = 0 + weights.length - 1 :=
        wcScan_eq_of_none r weights 0 0 (fun j hj => not_le.mpr (hfind j hj))
      constructor
      · exact Int.ofNat_nonneg _
      · rw [heq]
        exact Int.ofNat_lt.mpr (by omega)

/-- C3 aggregate: the uniform fallback on non-positive total weight, the
least-cumulative-index rule on positive total weight, and the last-index
fallback of the scan. -/
theorem weighted_choice_correct (weights : List ℚ) (rng : RNG)
    (hne : weights ≠ []) (hv : rng.Valid) :
    (weights.sum ≤ 0 →
        (weighted_choice weights rng).1 = ((rng.uniform_int 0 (weights.length - 1)).1 : Int)
        ∧ (rng.uniform_int 0 (weights.length - 1)).1 < weights.length)
    ∧ (0 < weights.sum →
        ∃ i : ℕ, (weighted_choice weights rng).1 = (i : Int)
          ∧ i < weights.length
          ∧ 0 ≤ (rng.uniform_double 0 weights.sum).1
          ∧ (rng.uniform_double 0 weights.sum).1 < weights.sum
          ∧ (rng.uniform_double 0 weights.sum).1 ≤ (weights.take (i + 1)).sum
          ∧ ∀ j, j < i → ¬ (rng.uniform_double 0 weights.sum).1 ≤ (weights.take (j + 1)).sum)
    ∧ (∀ r : ℚ, (∀ j, j < weights.length → ¬ r ≤ (weights.take (j + 1)).sum) →
        wcScan r weights 0 0 = weights.length - 1) := by
  have hlen : 0 < weights.length := List.length_pos.mpr hne
  have hemp : weights.isEmpty = false := by
    cases weights with
    | nil => exact absurd rfl hne
    | cons w ws => rfl
  have hfold : weights.foldl (· + ·) 0 = weights.sum := by
    rw [foldl_add_eq_sum, zero_add]
  refine ⟨?_, ?_, ?_⟩
  · intro hs
    rw [weighted_choice, hemp]
    simp only [Bool.false_eq_true, if_false]
    rw [if_pos (by rw [hfold]; exact hs)]
    exact ⟨rfl, RNG.uniform_int_lt rng weights.length hlen⟩
  · intro hs
    rw [weighted_choice, hemp]
    simp only [Bool.false_eq_true, if_false]
    rw [if_neg (by rw [hfold]; linarith), hfold]
    set r := (rng.uniform_double 0 weights.sum).1 with hrdef
    have hr0 : 0 ≤ r := (RNG.valid_uniform_double rng hv 0 _ (by linarith)).1
    have hr1 : r < weights.sum :=
      (RNG.valid_uniform_double rng hv 0 weights.sum (by linarith)).2 (by linarith)
    have hex : ∃ j, j < weights.length ∧ r ≤ 0 + (weights.take (j + 1)).sum := by
      refine ⟨weights.length - 1, by omega, ?_⟩
      have : weights.length - 1 + 1 = weights.length := by omega
      rw [this, List.take_length, zero_add]
      linarith
    classical
    obtain ⟨hj0lt, hj0le⟩ := Nat.find_spec hex
    have heq : wcScan r weights 0 0 = 0 + Nat.find hex :=
      wcScan_eq_of_least r weights 0 0 (Nat.find hex) hj0lt hj0le
        (fun j' hj' hcon => Nat.find_min hex hj' ⟨by omega, hcon⟩)
    refine ⟨Nat.find hex, ?_, hj0lt, hr0, hr1, ?_, ?_⟩
    · rw [heq]; simp
    · rw [zero_add] at hj0le; exact hj0le
    · intro j hj hcon
      exact Nat.find_min hex hj ⟨by omega, by rw [zero_add]; exact hcon⟩
  · intro r hall
    have := wcScan_eq_of_none r weights 0 0
      (fun j hj hcon => hall j hj (by rw [zero_add] at hcon; exact hcon))
    rw [this]; omega

/-- The all-zero raw stream: a concrete valid RNG used by witnesses. -/
def zeroRng : RNG := ⟨fun _ => 0, fun _ => 0, 0⟩

theorem zeroRng_valid : RNG.Valid zeroRng := by
  intro n; constructor <;> norm_num [zeroRng]

/-- C3 witness at the weight list `[1]` and the all-zero stream. -/
theorem weighted_choice_correct_witness :
    ([(1 : ℚ)] ≠ []) ∧ RNG.Valid zeroRng ∧
    ((([(1 : ℚ)].sum ≤ 0 →
        (weighted_choice [(1 : ℚ)] zeroRng).1 = ((zeroRng.uniform_int 0 ([(1 : ℚ)].length - 1)).1 : Int)
        ∧ (zeroRng.uniform_int 0 ([(1 : ℚ)].length - 1)).1 < [(1 : ℚ)].length)
    ∧ (0 < [(1 : ℚ)].sum →
        ∃ i : ℕ, (weighted_choice [(1 : ℚ)] zeroRng).1 = (i : Int)
          ∧ i < [(1 : ℚ)].length
          ∧ 0 ≤ (zeroRng.uniform_double 0 [(1 : ℚ)].sum).1
          ∧ (zeroRng.uniform_double 0 [(1 : ℚ)].sum).1 < [(1 : ℚ)].sum
          ∧ (zeroRng.uniform_double 0 [(1 : ℚ)].sum).1 ≤ ([(1 : ℚ)].take (i + 1)).sum
          ∧ ∀ j, j < i → ¬ (zeroRng.uniform_double 0 [(1 : ℚ)].sum).1 ≤ ([(1 : ℚ)].take (j + 1)).sum)
    ∧ (∀ r : ℚ, (∀ j, j < [(1 : ℚ)].length → ¬ r ≤ ([(1 : ℚ)].take (j + 1)).sum) →
        wcScan r [(1 : ℚ)] 0 0 = [(1 : ℚ)].length - 1))) :=
  ⟨by simp, zeroRng_valid, weighted_choice_correct [(1 : ℚ)] zeroRng (by simp) zeroRng_valid⟩

/-- Number of iterations of the shared loop `while (now <= simDuration)` with
`now` starting at `0.0` and advancing by `dt = 1.0`. -/
def numSteps (simDuration : ℚ) : ℕ :=
  if 0 ≤ simDuration then Nat.floor simDuration + 1 else 0

/-- The successive values of `now` over a run. -/
def stepTimes (simDuration : ℚ) : List ℚ :=
  (List.range (numSteps simDuration)).map (fun t : ℕ => (t : ℚ))

/-- `enum class TipSelectionMode` (tangle_sim.hpp). -/
inductive TipSelectionMode where
  | RANDOM_ONLY : TipSelectionMode
  | MCMC_ONLY : TipSelectionMode
  | HYBRID : TipSelectionMode
deriving DecidableEq, Repr

namespace Tangle

/-- `struct TxNode` (tangle_sim.cpp): one DAG node of the arena `g_nodes`. -/
structure TxNode where
  id : ℕ
  timestamp : ℚ
  height : ℕ
  parents : List ℕ
  children : List ℕ
deriving DecidableEq, Repr, Inhabited

/-- `struct Process` (tangle_sim.cpp): one participant's local view. -/
structure Process where
  id : ℕ
  knownNodes : Finset ℕ
  tipSet : Finset ℕ
deriving DecidableEq, Inhabited

/-- `struct Message` (tangle_sim.cpp): one pending delivery event. -/
structure Message where
  deliverTime : ℚ
  receiverId : ℕ
  nodeId : ℕ
deriving DecidableEq, Repr, Inhabited

/-- The per-run mutable state of `runTangleSimulation`: the arena `g_nodes`,
the global tip set `g_globalTips`, the processes, the pending-message queue,
the counter `g_messagesSent`, and the threaded RNG.  `scheduled` is a ghost
log of every message ever pushed onto the queue, used to state that
`g_messagesSent` counts scheduled broadcast events. -/
structure SimState where
  nodes : List TxNode
  globalTips : Finset ℕ
  procs : List Process
  pq : List Message
  messagesSent : ℕ
  scheduled : List Message
  rng : RNG

/-- The configuration a tangle run threads into every step: participant
count, the clamped per-step emission probability `txProb`, the delay range,
and the tip-selection parameters.  `expFn` stands for `std::exp`. -/
structure TangleConfig where
  numProcesses : ℕ
  txProb : ℚ
  minDelay : ℚ
  maxDelay : ℚ
  mode : TipSelectionMode
  securityBias : ℚ
  alphaHigh : ℚ
  expFn : ℚ → ℚ

/-- `processReceiveNode` (tangle_sim.cpp): no-op when the node is already
known; otherwise mark it known, erase every already-known parent from the
local tip set, and insert the node itself unless it has a known child. -/
def processReceiveNode (nodes : List TxNode) (proc : Process) (nodeId : ℕ) : Process :=
  if nodeId ∈ proc.knownNodes then proc
  else
    let known' : Finset ℕ := insert nodeId proc.knownNodes
    let nd := nodes.getD nodeId default
    let tips' := nd.parents.foldl
      (fun ts p => if p ∈ known' then ts.erase p else ts) proc.tipSet
    let hasKnownChild := nd.children.any (fun c => decide (c ∈ known'))
    { proc with
      knownNodes := known'
      tipSet := if hasKnownChild then tips' else insert nodeId tips' }

/-- `uniformRandomTip` (tangle_sim.cpp): genesis fallback on an empty local
tip set, otherwise the `k`-th element of the set for a uniform draw `k`.
The C++ `std::unordered_set` iteration order is unspecified; we enumerate the
set in ascending order. -/
def uniformRandomTip (proc : Process) (rng : RNG) : ℕ × RNG :=
  if proc.tipSet = ∅ then (0, rng)
  else
    let n := proc.tipSet.card
    let kr := rng.uniform_int 0 (n - 1)
    ((proc.tipSet.sort (· ≤ ·)).getD kr.1 0, kr.2)

/-- The loop body of `biasedRandomWalk` (tangle_sim.cpp), made structural on
a fuel argument; `none` means the fuel ran out.  The C++ loop has no fuel:
fuel `nodes.length` always suffices (claim C10) because the walk strictly
increases the current node id. -/
def biasedRandomWalkAux (nodes : List TxNode) (proc : Process) (expFn : ℚ → ℚ)
    (alpha : ℚ) : ℕ → ℕ → RNG → Option (ℕ × RNG)
  | 0, _, _ => none
  | fuel + 1, current, rng =>
    let children := (nodes.getD current default).children
    let knownChildren := children.filter (fun c => decide (c ∈ proc.knownNodes))
    if knownChildren.isEmpty then some (current, rng)
    else
      let weights := knownChildren.map
        (fun c => expFn (alpha * ((nodes.getD c default).height : ℚ)))
      let wc := weighted_choice weights rng
      if wc.1 < 0 then some (knownChildren.headD 0, wc.2)
      else biasedRandomWalkAux nodes proc expFn alpha fuel (knownChildren.getD wc.1.toNat 0) wc.2

/-- `biasedRandomWalk` (tangle_sim.cpp): walk from genesis through known
children, biased by `exp(alpha * height)`. -/
def biasedRandomWalk (nodes : List TxNode) (proc : Process) (expFn : ℚ → ℚ)
    (alpha : ℚ) (rng : RNG) : ℕ × RNG :=
  (biasedRandomWalkAux nodes proc expFn alpha nodes.length 0 rng).getD (0, rng)

/-- One iteration of the selection loop in `selectTips` (tangle_sim.cpp). -/
def selectOneTip (nodes : List TxNode) (proc : Process) (mode : TipSelectionMode)
    (securityBias alphaHigh : ℚ) (expFn : ℚ → ℚ) (rng : RNG) : ℕ × RNG :=
  match mode with
  | TipSelectionMode.RANDOM_ONLY => uniformRandomTip proc rng
  | TipSelectionMode.MCMC_ONLY => biasedRandomWalk nodes proc expFn alphaHigh rng
  | TipSelectionMode.HYBRID =>
    let rd := rng.uniform_double 0 1
    if rd.1 < securityBias then biasedRandomWalk nodes proc expFn alphaHigh rd.2
    else uniformRandomTip proc rd.2

/-- `selectTips` (tangle_sim.cpp): `numTips` independent selections. -/
def selectTips (nodes : List TxNode) (proc : Process) (mode : TipSelectionMode)
    (securityBias alphaHigh : ℚ) (expFn : ℚ → ℚ) : ℕ → RNG → List ℕ × RNG
  | 0, rng => ([], rng)
  | n + 1, rng =>
    let tr := selectOneTip nodes proc mode securityBias alphaHigh expFn rng
    let rest := selectTips nodes proc mode securityBias alphaHigh expFn n tr.2
    (tr.1 :: rest.1, rest.2)

/-- `broadcastNode` (tangle_sim.cpp): push one delivery event per process
other than the sender, each with an independent uniform delay, incrementing
`g_messagesSent` per event (and the ghost log alongside). -/
def broadcastStep (nodeId senderId : ℕ) (minDelay maxDelay now : ℚ)
    (st : SimState) (p : Process) : SimState :=
  if p.id = senderId then st
  else
    let dp := st.rng.uniform_double minDelay maxDelay
    let m : Message := ⟨now + dp.1, p.id, nodeId⟩
    { st with
      pq := st.pq ++ [m]
      rng := dp.2
      messagesSent := st.messagesSent + 1
      scheduled := st.scheduled ++ [m] }

def broadcastNode (nodeId senderId : ℕ) (minDelay maxDelay now : ℚ)
    (s : SimState) : SimState :=
  s.procs.foldl (broadcastStep nodeId senderId minDelay maxDelay now) s

/-- Delivery of a single popped message (loop body of phase 1 of the
simulation loop): events whose node id is outside the arena are dropped. -/
def applyMessage (nodes : List TxNode) (procs : List Process) (m : Message) :
    List Process :=
  if m.nodeId < nodes.length then
    procs.set m.receiverId (processReceiveNode nodes (procs.getD m.receiverId default) m.nodeId)
  else procs

/-- Phase 1 of the simulation loop: pop and deliver every message due by
`now`.  The C++ priority queue pops due messages in `deliverTime` order with
unspecified ties; receipt is idempotent set-insertion, so we apply the due
messages in queue order and keep the rest. -/
def drain (nodes : List TxNode) (procs : List Process) (pq : List Message)
    (now : ℚ) : List Process × List Message :=
  ((pq.filter (fun m => decide (m.deliverTime ≤ now))).foldl (applyMessage nodes) procs,
   pq.filter (fun m => !(decide (m.deliverTime ≤ now))))

/-- `g_nodes[p].children.push_back(newId)`: loop body of the parent update in
phase 2. -/
def addChildTo (newId : ℕ) (ns : List TxNode) (p : ℕ) : List TxNode :=
  ns.set p
    (let n := ns.getD p default
     { n with children := n.children ++ [newId] })

/-- Phase 2 of the simulation loop for one process: one emission draw and, on
success, node creation, parent/child and global-tip bookkeeping, instant
self-receipt, and the broadcast. -/
def emitOne (C : TangleConfig) (now : ℚ) (st : SimState) (i : ℕ) : SimState :=
  let pr := st.procs.getD i default
  let rd := st.rng.uniform_double 0 1
  if rd.1 < C.txProb then
    let newId := st.nodes.length
    let sel := selectTips st.nodes pr C.mode C.securityBias C.alphaHigh C.expFn 2 rd.2
    let tips := sel.1
    let maxH := tips.foldl (fun mh p => max mh (st.nodes.getD p default).height) 0
    let node : TxNode := ⟨newId, now, maxH + 1, tips, []⟩
    let nodes2 := tips.foldl (addChildTo newId) (st.nodes ++ [node])
    let gts := insert newId (tips.foldl (fun g p => g.erase p) st.globalTips)
    let pr' := processReceiveNode nodes2 pr newId
    let st1 := { st with
      nodes := nodes2
      globalTips := gts
      procs := st.procs.set i pr'
      rng := sel.2 }
    broadcastNode newId pr.id C.minDelay C.maxDelay now st1
  else
    { st with rng := rd.2 }

/-- One CSV data row of the mode A metrics output. -/
structure MetricsRow where
  time : ℚ
  globalTips : ℕ
  avgLocalTips : ℚ
  minLocalTips : ℕ
  maxLocalTips : ℕ
  totalNodes : ℕ
  tipRatio : ℚ
  messagesSent : ℕ
deriving DecidableEq, Repr

/-- Phase 3 of the simulation loop: the metrics record emitted for `now`.
`minLocalTips` starts from `std::numeric_limits<int>::max()`. -/
def metricsRow (numProcesses : ℕ) (s : SimState) (now : ℚ) : MetricsRow :=
  let counts := s.procs.map (fun pr => pr.tipSet.card)
  let totalLocalTips : ℕ := counts.foldl (· + ·) 0
  let minLocalTips := counts.foldl min 2147483647
  let maxLocalTips := counts.foldl max 0
  let totalNodes := s.nodes.length
  let globalTips := s.globalTips.card
  { time := now
    globalTips := globalTips
    avgLocalTips := (totalLocalTips : ℚ) / (numProcesses : ℚ)
    minLocalTips := minLocalTips
    maxLocalTips := maxLocalTips
    totalNodes := totalNodes
    tipRatio := if 0 < totalNodes then (globalTips : ℚ) / (totalNodes : ℚ) else 0
    messagesSent := s.messagesSent }

/-- One iteration of the `while (now <= simDuration)` loop: deliver due
messages, let every process emit, and record the metrics row. -/
def simStep (C : TangleConfig) (now : ℚ) (s : SimState) : SimState × MetricsRow :=
  let dp := drain s.nodes s.procs s.pq now
  let s1 := { s with procs := dp.1, pq := dp.2 }
  let s2 := (List.range C.numProcesses).foldl (emitOne C now) s1
  (s2, metricsRow C.numProcesses s2 now)

/-- The state of `runTangleSimulation` right before the loop: the genesis
node, the genesis global tip, and every process knowing exactly genesis. -/
def initState (numProcesses : ℕ) (rng : RNG) : SimState :=
  { nodes := [⟨0, 0, 0, [], []⟩]
    globalTips := {0}
    procs := (List.range numProcesses).map (fun i => ⟨i, {0}, {0}⟩)
    pq := []
    messagesSent := 0
    scheduled := []
    rng := rng }

/-- The simulation loop over the listed step times, collecting one metrics
row per step. -/
def runLoop (C : TangleConfig) : List ℚ → SimState → List MetricsRow × SimState
  | [], s => ([], s)
  | t :: ts, s =>
    let sr := simStep C t s
    let rest := runLoop C ts sr.1
    (sr.2 :: rest.1, rest.2)

/-- The CSV header literal written by `runTangleSimulation` (the source
splits it over two adjacent string literals). -/
def tangleCsvHeader : String :=
  "time,global_tips,avg_local_tips,min_local_tips,max_local_tips,total_nodes,tip_ratio,messages_sent"

/-- The configuration `runTangleSimulation` threads into the loop, with the
per-step probability `lambdaPerProcess * dt` clamped to `1.0`. -/
def mkConfig (numProcesses : ℕ) (lambdaPerProcess minDelay maxDelay : ℚ)
    (mode : TipSelectionMode) (securityBias alphaHigh : ℚ) (expFn : ℚ → ℚ) :
    TangleConfig :=
  let dt : ℚ := 1
  let txProb0 := lambdaPerProcess * dt
  ⟨numProcesses, if txProb0 > 1 then 1 else txProb0, minDelay, maxDelay, mode,
    securityBias, alphaHigh, expFn⟩

/-- `runTangleSimulation` (tangle_sim.cpp).  The seeded `std::mt19937` is the
abstract stream `rng`; `outputOk` models whether `std::ofstream out(outputPath)`
opened: on failure the run reports and returns before writing anything
(`none`), otherwise the output is the header followed by one row per step. -/
def runTangleSimulation (numProcesses : ℕ)
    (lambdaPerProcess simDuration minDelay maxDelay : ℚ) (mode : TipSelectionMode)
    (securityBias alphaHigh : ℚ) (expFn : ℚ → ℚ) (rng : RNG) (outputOk : Bool) :
    Option (String × List MetricsRow) :=
  let C := mkConfig numProcesses lambdaPerProcess minDelay maxDelay mode
    securityBias alphaHigh expFn
  if outputOk then
    some (tangleCsvHeader, (runLoop C (stepTimes simDuration) (initState numProcesses rng)).1)
  else
    none

/-- The states a tangle run can pass through: the pre-loop state for any
stream, closed under simulation steps at any step time. -/
inductive Reachable (C : TangleConfig) : SimState → Prop where
  | init (rng : RNG) : Reachable C (initState C.numProcesses rng)
  | step (s : SimState) (now : ℚ) : Reachable C s → Reachable C (simStep C now s).1

end Tangle

namespace Witness

/-- `struct WNode` (witness_sim.cpp): one block of the arena `g_wnodes`;
`owner = -1` marks genesis. -/
structure WNode where
  id : ℕ
  owner : Int
  timestamp : ℚ
  parents : List ℕ
  children : List ℕ
  isLeaf : Bool
deriving DecidableEq, Repr, Inhabited

/-- `struct WProcess` (witness_sim.cpp): one user; `lastBlockId = -1` until
the user's first block. -/
structure WProcess where
  id : ℕ
  lastBlockId : Int
  knownBlocks : Finset ℕ
deriving DecidableEq, Inhabited

/-- `struct WMessage` (witness_sim.cpp). -/
structure WMessage where
  deliverTime : ℚ
  receiverId : ℕ
  nodeId : ℕ
deriving DecidableEq, Repr, Inhabited

/-- The per-run mutable state of `runWitnessSimulation`: the arena
`g_wnodes`, the global leaf set `g_globalLeaves`, the count `g_numUsers`, the
users, the pending-message queue, and the threaded RNG. -/
structure WState where
  wnodes : List WNode
  globalLeaves : Finset ℕ
  numUsers : ℕ
  procs : List WProcess
  pq : List WMessage
  rng : RNG

/-- `processReceiveBlock` (witness_sim.cpp): mark the block as known. -/
def processReceiveBlock (proc : WProcess) (nodeId : ℕ) : WProcess :=
  { proc with knownBlocks := insert nodeId proc.knownBlocks }

/-- Loop body of `broadcastNode` (witness_sim.cpp). -/
def broadcastStep (nodeId senderId : ℕ) (minDelay maxDelay now : ℚ)
    (st : WState) (p : WProcess) : WState :=
  if p.id = senderId then st
  else
    let dp := st.rng.uniform_double minDelay maxDelay
    { st with pq := st.pq ++ [⟨now + dp.1, p.id, nodeId⟩], rng := dp.2 }

/-- `broadcastNode` (witness_sim.cpp): one delivery event per user other than
the sender, with an independent uniform delay. -/
def broadcastNode (nodeId senderId : ℕ) (minDelay maxDelay now : ℚ)
    (s : WState) : WState :=
  s.procs.foldl (broadcastStep nodeId senderId minDelay maxDelay now) s

/-- `struct Cand` inside `selectWitnesses` (witness_sim.cpp). -/
structure Cand where
  owner : ℕ
  blockId : ℕ
  ts : ℚ
deriving DecidableEq, Repr

/-- Loop body of the best-per-owner scan of `selectWitnesses`: `best` encodes
the C++ arrays `bestBlock` (first component, `-1` for none) and `bestTs`
(second component, initialised to `-1.0`). -/
def bestStep (wnodes : List WNode) (procId : ℕ) (best : List (Int × ℚ)) (bid : ℕ) :
    List (Int × ℚ) :=
  if bid < wnodes.length then
    let n := wnodes.getD bid default
    if n.owner < 0 then best
    else if n.owner = (procId : Int) then best
    else
      let o := n.owner.toNat
      if (best.getD o (-1, -1)).2 < n.timestamp then
        best.set o ((bid : Int), n.timestamp)
      else best
  else best

/-- Stable insertion into a list kept in descending-timestamp order. -/
def insertByTsDesc (c : Cand) : List Cand → List Cand
  | [] => [c]
  | d :: ds => if d.ts < c.ts then c :: d :: ds else d :: insertByTsDesc c ds

/-- The `std::sort` call of `selectWitnesses`, comparator `a.ts > b.ts`,
realised as a stable insertion sort (the C++ sort leaves the order of equal
timestamps unspecified). -/
def sortByTsDesc (l : List Cand) : List Cand := l.foldr insertByTsDesc []

/-- `selectWitnesses` (witness_sim.cpp): best known block per other owner,
sorted by timestamp descending, truncated to `maxWitnesses`.  The C++
`std::unordered_set` iteration is unspecified; we scan the knowledge set in
ascending order. -/
def selectWitnesses (numUsers : ℕ) (wnodes : List WNode) (proc : WProcess)
    (maxWitnesses : ℕ) : List ℕ :=
  let best := (proc.knownBlocks.sort (· ≤ ·)).foldl (bestStep wnodes proc.id)
    (List.replicate numUsers (-1, -1))
  let cands := (List.range numUsers).filterMap
    (fun o =>
      if o = proc.id then none
      else
        let b := best.getD o (-1, -1)
        if b.1 ≠ -1 then some ⟨o, b.1.toNat, b.2⟩ else none)
  ((sortByTsDesc cands).take maxWitnesses).map (fun c => c.blockId)

/-- Delivery of a single popped message (phase 1 loop body); events outside
the arena range are dropped. -/
def applyMessage (wlen : ℕ) (procs : List WProcess) (m : WMessage) : List WProcess :=
  if m.nodeId < wlen then
    procs.set m.receiverId (processReceiveBlock (procs.getD m.receiverId default) m.nodeId)
  else procs

/-- Phase 1: deliver every message due by `now` (same queue modelling as in
mode A). -/
def drain (wlen : ℕ) (procs : List WProcess) (pq : List WMessage) (now : ℚ) :
    List WProcess × List WMessage :=
  ((pq.filter (fun m => decide (m.deliverTime ≤ now))).foldl (applyMessage wlen) procs,
   pq.filter (fun m => !(decide (m.deliverTime ≤ now))))

/-- Loop body of the parent update in phase 2: `children.push_back(newId)`
and, when the parent was a leaf, clearing its leaf flag and removing it from
`g_globalLeaves`. -/
def linkParent (newId : ℕ) (acc : List WNode × Finset ℕ) (p : ℕ) :
    List WNode × Finset ℕ :=
  let n := acc.1.getD p default
  if n.isLeaf then
    (acc.1.set p { n with children := n.children ++ [newId], isLeaf := false },
     acc.2.erase p)
  else
    (acc.1.set p { n with children := n.children ++ [newId] }, acc.2)

/-- Phase 2 for one user: one posting draw and, on success, block creation
with own-chain parent plus deduplicated witnesses, children/leaf bookkeeping,
user-state update, and the broadcast. -/
def emitOne (postProbPerStep minDelay maxDelay : ℚ) (maxWitnesses : ℕ) (now : ℚ)
    (st : WState) (i : ℕ) : WState :=
  let pr := st.procs.getD i default
  let rd := st.rng.uniform_double 0 1
  if rd.1 < postProbPerStep then
    let newId := st.wnodes.length
    let ownParent : ℕ := if pr.lastBlockId ≠ -1 then pr.lastBlockId.toNat else 0
    let witnesses := selectWitnesses st.numUsers st.wnodes pr maxWitnesses
    let parents := ownParent :: witnesses.filter (fun w => w ≠ ownParent)
    let node : WNode := ⟨newId, (pr.id : Int), now, parents, [], true⟩
    let wl := parents.foldl (linkParent newId) (st.wnodes ++ [node], st.globalLeaves)
    let wnodes2 := wl.1.set newId
      (let n := wl.1.getD newId default; { n with isLeaf := true })
    let leaves2 := insert newId wl.2
    let pr' := { pr with
      lastBlockId := (newId : Int)
      knownBlocks := insert newId pr.knownBlocks }
    let st1 := { st with
      wnodes := wnodes2
      globalLeaves := leaves2
      procs := st.procs.set i pr'
      rng := rd.2 }
    broadcastNode newId pr.id minDelay maxDelay now st1
  else
    { st with rng := rd.2 }

/-- One CSV data row of the mode B metrics output. -/
structure WMetricsRow where
  time : ℚ
  globalLeaves : ℕ
  totalNodes : ℕ
deriving DecidableEq, Repr

/-- Phase 3: the metrics record emitted for `now`. -/
def metricsRow (s : WState) (now : ℚ) : WMetricsRow :=
  ⟨now, s.globalLeaves.card, s.wnodes.length⟩

/-- One iteration of the `while (now <= simDuration)` loop. -/
def simStep (postProbPerStep minDelay maxDelay : ℚ) (maxWitnesses : ℕ) (now : ℚ)
    (s : WState) : WState × WMetricsRow :=
  let dp := drain s.wnodes.length s.procs s.pq now
  let s1 := { s with procs := dp.1, pq := dp.2 }
  let s2 := (List.range s.numUsers).foldl
    (emitOne postProbPerStep minDelay maxDelay maxWitnesses now) s1
  (s2, metricsRow s2 now)

/-- The state of `runWitnessSimulation` right before the loop: the users,
the genesis block (owner `-1`), genesis as sole global leaf, and every user
knowing exactly genesis. -/
def initState (numUsers : ℕ) (rng : RNG) : WState :=
  { wnodes := [⟨0, -1, 0, [], [], true⟩]
    globalLeaves := {0}
    numUsers := numUsers
    procs := (List.range numUsers).map (fun i => ⟨i, -1, {0}⟩)
    pq := []
    rng := rng }

/-- The simulation loop over the listed step times. -/
def runLoop (postProbPerStep minDelay maxDelay : ℚ) (maxWitnesses : ℕ) :
    List ℚ → WState → List WMetricsRow × WState
  | [], s => ([], s)
  | t :: ts, s =>
    let sr := simStep postProbPerStep minDelay maxDelay maxWitnesses t s
    let rest := runLoop postProbPerStep minDelay maxDelay maxWitnesses ts sr.1
    (sr.2 :: rest.1, rest.2)

/-- The CSV header literal written by `runWitnessSimulation`. -/
def witnessCsvHeader : String := "time,global_leaves,total_nodes"

/-- `runWitnessSimulation` (witness_sim.cpp); same I/O modelling as
`Tangle.runTangleSimulation`. -/
def runWitnessSimulation (numUsers : ℕ)
    (postProbPerStep simDuration minDelay maxDelay : ℚ) (maxWitnesses : ℕ)
    (rng : RNG) (outputOk : Bool) : Option (String × List WMetricsRow) :=
  if outputOk then
    some (witnessCsvHeader,
      (runLoop postProbPerStep minDelay maxDelay maxWitnesses (stepTimes simDuration)
        (initState numUsers rng)).1)
  else
    none

/-- The states a witness run can pass through; step times are the
non-negative values `now` takes in `runWitnessSimulation`. -/
inductive Reachable (postProbPerStep minDelay maxDelay : ℚ) (maxWitnesses : ℕ) :
    WState → Prop where
  | init (numUsers : ℕ) (rng : RNG) :
      Reachable postProbPerStep minDelay maxDelay maxWitnesses (initState numUsers rng)
  | step (s : WState) (now : ℚ) (hnow : 0 ≤ now) :
      Reachable postProbPerStep minDelay maxDelay maxWitnesses s →
      Reachable postProbPerStep minDelay maxDelay maxWitnesses
        (simStep postProbPerStep minDelay maxDelay maxWitnesses now s).1

end Witness

section ListHelpers

variable {α : Type}

theorem getD_set_self (l : List α) (i : ℕ) (a d : α) (h : i < l.length) :
    (l.set i a).getD i d = a := by
  simp [List.getD, List.getElem?_set_self, h]

theorem getD_set_ne (l : List α) (i j : ℕ) (a d : α) (h : i ≠ j) :
    (l.set i a).getD j d = l.getD j d := by
  simp [List.getD, List.getElem?_set_ne h]

theorem getD_set_oob (l : List α) (i j : ℕ) (a d : α) (h : l.length ≤ i) :
    (l.set i a).getD j d = l.getD j d := by
  rw [List.set_eq_of_length_le h]

theorem getD_map_range (f : ℕ → α) (n j : ℕ) (d : α) (h : j < n) :
    ((List.range n).map f).getD j d = f j := by
  rw [List.getD_eq_getElem _ _ (by simpa using h)]
  simp

theorem getD_oob (l : List α) (j : ℕ) (d : α) (h : l.length ≤ j) :
    l.getD j d = d := by
  simp [List.getD, List.getElem?_eq_none h]

theorem getD_replicate (n i : ℕ) (a d : α) (h : i < n) :
    (List.replicate n a).getD i d = a := by
  rw [List.getD_eq_getElem _ _ (by simpa using h)]
  simp

end ListHelpers

namespace Tangle

/-- The node stored at index `i` of the arena. -/
def nodeAt (nodes : List TxNode) (i : ℕ) : TxNode := nodes.getD i default

/-- Structural invariant of the arena `g_nodes`: ids equal indices, genesis
has no parents, parents strictly precede their node, children strictly follow
their node and stay in range, and the child lists are exactly the
back-references of the parent lists. -/
def GraphInv (nodes : List TxNode) : Prop :=
  0 < nodes.length ∧
  (∀ i, i < nodes.length → (nodeAt nodes i).id = i) ∧
  (nodeAt nodes 0).parents = [] ∧
  (∀ i, i < nodes.length → ∀ p ∈ (nodeAt nodes i).parents, p < i) ∧
  (∀ i, i < nodes.length → ∀ c ∈ (nodeAt nodes i).children, i < c ∧ c < nodes.length) ∧
  (∀ i c, i < nodes.length → c < nodes.length →
    (c ∈ (nodeAt nodes i).children ↔ i ∈ (nodeAt nodes c).parents))

/-- Invariant of one process view: genesis is known, knowledge stays in
range, and the local tip set is exactly the known nodes without a known
child. -/
def ProcOk (nodes : List TxNode) (pr : Process) : Prop :=
  0 ∈ pr.knownNodes ∧
  (∀ n ∈ pr.knownNodes, n < nodes.length) ∧
  (∀ n, n ∈ pr.tipSet ↔
    n ∈ pr.knownNodes ∧ ∀ c ∈ (nodeAt nodes n).children, c ∉ pr.knownNodes)

/-- The master invariant of a tangle run. -/
def AInv (C : TangleConfig) (s : SimState) : Prop :=
  GraphInv s.nodes ∧
  s.procs.length = C.numProcesses ∧
  (∀ j, j < s.procs.length → (s.procs.getD j default).id = j) ∧
  (∀ j, j < s.procs.length → ProcOk s.nodes (s.procs.getD j default)) ∧
  s.messagesSent = s.scheduled.length

theorem mem_foldl_eraseIf (K : Finset ℕ) :
    ∀ (l : List ℕ) (ts : Finset ℕ) (m : ℕ),
      (m ∈ l.foldl (fun ts p => if p ∈ K then ts.erase p else ts) ts) ↔
        (m ∈ ts ∧ ¬(m ∈ l ∧ m ∈ K)) := by
  intro l
  induction l with
  | nil => intro ts m; simp
  | cons p l ih =>
    intro ts m
    rw [List.foldl_cons, ih]
    by_cases hpK : p ∈ K
    · rw [if_pos hpK]
      by_cases hmp : m = p
      · subst hmp
        simp [Finset.mem_erase, hpK]
      · simp only [Finset.mem_erase, List.mem_cons]
        constructor
        · rintro ⟨⟨_, hm⟩, hnot⟩
          exact ⟨hm, fun ⟨hml, hmK⟩ => hnot ⟨hml.resolve_left hmp, hmK⟩⟩
        · rintro ⟨hm, hnot⟩
          exact ⟨⟨hmp, hm⟩, fun ⟨hml, hmK⟩ => hnot ⟨Or.inr hml, hmK⟩⟩
    · rw [if_neg hpK]
      simp only [List.mem_cons]
      constructor
      · rintro ⟨hm, hnot⟩
        refine ⟨hm, fun ⟨hml, hmK⟩ => ?_⟩
        rcases hml with rfl | hml
        · exact hpK hmK
        · exact hnot ⟨hml, hmK⟩
      · rintro ⟨hm, hnot⟩
        exact ⟨hm, fun ⟨hml, hmK⟩ => hnot ⟨Or.inr hml, hmK⟩⟩

theorem processReceiveNode_id (nodes : List TxNode) (pr : Process) (nodeId : ℕ) :
    (processReceiveNode nodes pr nodeId).id = pr.id := by
  rw [processReceiveNode]
  split <;> rfl

theorem processReceiveNode_known (nodes : List TxNode) (pr : Process) (nodeId : ℕ)
    (h : nodeId ∈ pr.knownNodes) : processReceiveNode nodes pr nodeId = pr := by
  rw [processReceiveNode, if_pos h]

theorem processReceiveNode_knownNodes (nodes : List TxNode) (pr : Process) (nodeId : ℕ)
    (h : nodeId ∉ pr.knownNodes) :
    (processReceiveNode nodes pr nodeId).knownNodes = insert nodeId pr.knownNodes := by
  rw [processReceiveNode, if_neg h]

theorem processReceiveNode_mem_known (nodes : List TxNode) (pr : Process) (nodeId : ℕ) :
    nodeId ∈ (processReceiveNode nodes pr nodeId).knownNodes := by
  by_cases h : nodeId ∈ pr.knownNodes
  · rw [processReceiveNode_known nodes pr nodeId h]; exact h
  · rw [processReceiveNode_knownNodes nodes pr nodeId h]; exact Finset.mem_insert_self _ _

theorem processReceiveNode_known_mono (nodes : List TxNode) (pr : Process) (nodeId : ℕ) :
    pr.knownNodes ⊆ (processReceiveNode nodes pr nodeId).knownNodes := by
  by_cases h : nodeId ∈ pr.knownNodes
  · rw [processReceiveNode_known nodes pr nodeId h]
  · rw [processReceiveNode_knownNodes nodes pr nodeId h]
    exact Finset.subset_insert _ _

/-- Membership in the tip set after receiving an unknown node: the node
itself enters iff it has no known child; every other node survives unless it
is an already-known parent of the received node. -/
theorem processReceiveNode_tipSet (nodes : List TxNode) (pr : Process) (nodeId : ℕ)
    (h : nodeId ∉ pr.knownNodes) (htip : nodeId ∉ pr.tipSet) (m : ℕ) :
    m ∈ (processReceiveNode nodes pr nodeId).tipSet ↔
      (if m = nodeId then
        ∀ c ∈ (nodeAt nodes nodeId).children, c ∉ insert nodeId pr.knownNodes
      else
        m ∈ pr.tipSet ∧ ¬(m ∈ (nodeAt nodes nodeId).parents ∧ m ∈ pr.knownNodes)) := by
  rw [processReceiveNode, if_neg h]
  simp only [nodeAt]
  set known' : Finset ℕ := insert nodeId pr.knownNodes with hknown'
  set nd := nodes.getD nodeId default with hnd
  set tips' := nd.parents.foldl (fun ts p => if p ∈ known' then ts.erase p else ts) pr.tipSet
    with htips'
  have htips'mem : ∀ x, x ∈ tips' ↔ x ∈ pr.tipSet ∧ ¬(x ∈ nd.parents ∧ x ∈ known') := by
    intro x; rw [htips']; exact mem_foldl_eraseIf known' nd.parents pr.tipSet x
  by_cases hanyc : nd.children.any (fun c => decide (c ∈ known'))
  · simp only [hanyc, if_true, if_pos]
    by_cases hm : m = nodeId
    · subst hm
      rw [if_pos rfl]
      constructor
      · intro hmem
        exact absurd ((htips'mem m).mp hmem).1 htip
      · intro hall
        exfalso
        rw [List.any_eq_true] at hanyc
        obtain ⟨c, hc, hck⟩ := hanyc
        exact hall c hc (of_decide_eq_true hck)
    · rw [if_neg hm, htips'mem m]
      constructor
      · rintro ⟨hmt, hnot⟩
        refine ⟨hmt, fun ⟨hmp, hmk⟩ => hnot ⟨hmp, Finset.mem_insert_of_mem hmk⟩⟩
      · rintro ⟨hmt, hnot⟩
        refine ⟨hmt, fun ⟨hmp, hmk⟩ => ?_⟩
        rw [hknown', Finset.mem_insert] at hmk
        rcases hmk with rfl | hmk
        · exact hm rfl
        · exact hnot ⟨hmp, hmk⟩
  · simp only [hanyc, if_false, Bool.false_eq_true, Finset.mem_insert]
    by_cases hm : m = nodeId
    · subst hm
      rw [if_pos rfl]
      constructor
      · intro _
        intro c hc hck
        exact hanyc (List.any_eq_true.mpr ⟨c, hc, decide_eq_true hck⟩)
      · intro _; exact Or.inl rfl
    · rw [if_neg hm, htips'mem m]
      constructor
      · rintro (rfl | ⟨hmt, hnot⟩)
        · exact absurd rfl hm
        · refine ⟨hmt, fun ⟨hmp, hmk⟩ => hnot ⟨hmp, Finset.mem_insert_of_mem hmk⟩⟩
      · rintro ⟨hmt, hnot⟩
        refine Or.inr ⟨hmt, fun ⟨hmp, hmk⟩ => ?_⟩
        rw [hknown', Finset.mem_insert] at hmk
        rcases hmk with rfl | hmk
        · exact hm rfl
        · exact hnot ⟨hmp, hmk⟩

end Tangle

namespace Tangle

theorem procOk_receive (nodes : List TxNode) (pr : Process) (nodeId : ℕ)
    (G : GraphInv nodes) (hpr : ProcOk nodes pr) (hId : nodeId < nodes.length) :
    ProcOk nodes (processReceiveNode nodes pr nodeId) := by
  obtain ⟨h0, hbound, htipchar⟩ := hpr
  by_cases hk : nodeId ∈ pr.knownNodes
  · rw [processReceiveNode_known nodes pr nodeId hk]
    exact ⟨h0, hbound, htipchar⟩
  · have htip : nodeId ∉ pr.tipSet := fun ht => hk ((htipchar nodeId).mp ht).1
    have hknown := processReceiveNode_knownNodes nodes pr nodeId hk
    refine ⟨?_, ?_, ?_⟩
    · rw [hknown]; exact Finset.mem_insert_of_mem h0
    · rw [hknown]
      intro n hn
      rcases Finset.mem_insert.mp hn with rfl | hn
      · exact hId
      · exact hbound n hn
    · intro m
      rw [processReceiveNode_tipSet nodes pr nodeId hk htip m, hknown]
      by_cases hm : m = nodeId
      · subst hm
        rw [if_pos rfl]
        constructor
        · intro hall
          exact ⟨Finset.mem_insert_self _ _, hall⟩
        · intro hall
          exact hall.2
      · rw [if_neg hm, htipchar m]
        by_cases hmk : m ∈ pr.knownNodes
        · have hmlen : m < nodes.length := hbound m hmk
          have hcorr := G.2.2.2.2.2 m nodeId hmlen hId
          constructor
          · rintro ⟨⟨_, hall⟩, hnp⟩
            refine ⟨Finset.mem_insert_of_mem hmk, ?_⟩
            intro c hc hcmem
            rcases Finset.mem_insert.mp hcmem with rfl | hcmem
            · exact hnp ⟨hcorr.mp hc, hmk⟩
            · exact hall c hc hcmem
          · rintro ⟨_, hall⟩
            refine ⟨⟨hmk, ?_⟩, ?_⟩
            · intro c hc hcmem
              exact hall c hc (Finset.mem_insert_of_mem hcmem)
            · rintro ⟨hmp, _⟩
              exact hall nodeId (hcorr.mpr hmp) (Finset.mem_insert_self _ _)
        · constructor
          · rintro ⟨⟨hmk', _⟩, _⟩
            exact absurd hmk' hmk
          · rintro ⟨hmem, _⟩
            rcases Finset.mem_insert.mp hmem with rfl | hmem
            · exact absurd rfl hm
            · exact absurd hmem hmk

/-- A process view keeps its invariant when the arena is extended so long as
the child lists restricted to the view's knowledge are unchanged. -/
theorem procOk_extend (nodes nodes' : List TxNode) (pr : Process)
    (hlen : nodes.length ≤ nodes'.length)
    (hch : ∀ n, n < nodes.length → ∀ c ∈ pr.knownNodes,
      (c ∈ (nodeAt nodes' n).children ↔ c ∈ (nodeAt nodes n).children))
    (hpr : ProcOk nodes pr) : ProcOk nodes' pr := by
  obtain ⟨h0, hbound, htipchar⟩ := hpr
  refine ⟨h0, fun n hn => lt_of_lt_of_le (hbound n hn) hlen, ?_⟩
  intro m
  rw [htipchar m]
  by_cases hmk : m ∈ pr.knownNodes
  · have hmlen : m < nodes.length := hbound m hmk
    constructor
    · rintro ⟨_, hall⟩
      refine ⟨hmk, fun c hc hcmem => ?_⟩
      exact hall c ((hch m hmlen c hcmem).mp hc) hcmem
    · rintro ⟨_, hall⟩
      refine ⟨hmk, fun c hc hcmem => ?_⟩
      exact hall c ((hch m hmlen c hcmem).mpr hc) hcmem
  · constructor
    · rintro ⟨hmk', _⟩; exact absurd hmk' hmk
    · rintro ⟨hmk', _⟩; exact absurd hmk' hmk

theorem nodeAt_append_lt (nodes : List TxNode) (node : TxNode) (i : ℕ)
    (h : i < nodes.length) : nodeAt (nodes ++ [node]) i = nodeAt nodes i :=
  List.getD_append _ _ _ _ h

theorem nodeAt_append_self (nodes : List TxNode) (node : TxNode) :
    nodeAt (nodes ++ [node]) nodes.length = node := by
  rw [nodeAt, List.getD_append_right _ _ _ _ (le_refl _)]
  simp

theorem length_addChildTo (newId : ℕ) (ns : List TxNode) (p : ℕ) :
    (addChildTo newId ns p).length = ns.length := by
  rw [addChildTo]; exact List.length_set ns p _

theorem nodeAt_addChildTo_self (newId : ℕ) (ns : List TxNode) (p : ℕ)
    (h : p < ns.length) :
    nodeAt (addChildTo newId ns p) p =
      { nodeAt ns p with children := (nodeAt ns p).children ++ [newId] } := by
  rw [addChildTo, nodeAt, nodeAt]
  exact getD_set_self ns p _ _ h

theorem nodeAt_addChildTo_ne (newId : ℕ) (ns : List TxNode) (p q : ℕ)
    (h : p ≠ q) : nodeAt (addChildTo newId ns p) q = nodeAt ns q := by
  rw [addChildTo, nodeAt, nodeAt]
  exact getD_set_ne ns p q _ _ h

/-- Net effect of the parent-update loop of phase 2: lengths and the
id/parents/timestamp/height fields are untouched; a child list gains exactly
`newId` at every parent. -/
theorem foldl_addChildTo_char (newId : ℕ) :
    ∀ (tips : List ℕ) (base : List TxNode), (∀ t ∈ tips, t < base.length) →
      (tips.foldl (addChildTo newId) base).length = base.length ∧
      (∀ i, (nodeAt (tips.foldl (addChildTo newId) base) i).id = (nodeAt base i).id ∧
            (nodeAt (tips.foldl (addChildTo newId) base) i).parents = (nodeAt base i).parents ∧
            (nodeAt (tips.foldl (addChildTo newId) base) i).timestamp = (nodeAt base i).timestamp ∧
            (nodeAt (tips.foldl (addChildTo newId) base) i).height = (nodeAt base i).height) ∧
      (∀ i c, c ∈ (nodeAt (tips.foldl (addChildTo newId) base) i).children ↔
        (c ∈ (nodeAt base i).children ∨ (c = newId ∧ i ∈ tips))) := by
  intro tips
  induction tips with
  | nil =>
    intro base _
    refine ⟨rfl, fun i => ⟨rfl, rfl, rfl, rfl⟩, fun i c => ?_⟩
    simp
  | cons t ts ih =>
    intro base hbound
    have ht : t < base.length := hbound t (List.mem_cons_self t ts)
    rw [List.foldl_cons]
    obtain ⟨ihlen, ihfields, ihch⟩ := ih (addChildTo newId base t)
      (fun x hx => by rw [length_addChildTo]; exact hbound x (List.mem_cons_of_mem t hx))
    have hfields' : ∀ i, (nodeAt (addChildTo newId base t) i).id = (nodeAt base i).id ∧
        (nodeAt (addChildTo newId base t) i).parents = (nodeAt base i).parents ∧
        (nodeAt (addChildTo newId base t) i).timestamp = (nodeAt base i).timestamp ∧
        (nodeAt (addChildTo newId base t) i).height = (nodeAt base i).height := by
      intro i
      by_cases hit : t = i
      · subst hit
        rw [nodeAt_addChildTo_self newId base t ht]
        exact ⟨rfl, rfl, rfl, rfl⟩
      · rw [nodeAt_addChildTo_ne newId base t i hit]
        exact ⟨rfl, rfl, rfl, rfl⟩
    have hch' : ∀ i c, c ∈ (nodeAt (addChildTo newId base t) i).children ↔
        (c ∈ (nodeAt base i).children ∨ (c = newId ∧ i = t)) := by
      intro i c
      by_cases hit : t = i
      · subst hit
        rw [nodeAt_addChildTo_self newId base t ht]
        simp
      · rw [nodeAt_addChildTo_ne newId base t i hit]
        have hit' : ¬ i = t := fun h => hit h.symm
        simp [hit']
    refine ⟨by rw [ihlen, length_addChildTo], ?_, ?_⟩
    · intro i
      obtain ⟨a, b, c, d⟩ := ihfields i
      obtain ⟨a', b', c', d'⟩ := hfields' i
      exact ⟨a.trans a', b.trans b', c.trans c', d.trans d'⟩
    · intro i c
      rw [ihch i c, hch' i c, List.mem_cons]
      by_cases hc : c = newId
      · subst hc
        by_cases hit : i = t <;> simp [hit]
      · simp [hc]

end Tangle

namespace Tangle

theorem uniformRandomTip_lt (nodes : List TxNode) (proc : Process) (rng : RNG)
    (hsub : ∀ n ∈ proc.tipSet, n < nodes.length) (hpos : 0 < nodes.length) :
    (uniformRandomTip proc rng).1 < nodes.length := by
  rw [uniformRandomTip]
  by_cases he : proc.tipSet = ∅
  · rw [if_pos he]; exact hpos
  · rw [if_neg he]
    show (proc.tipSet.sort (· ≤ ·)).getD (rng.uniform_int 0 (proc.tipSet.card - 1)).1 0 <
      nodes.length
    set l := proc.tipSet.sort (· ≤ ·) with hl
    set k := (rng.uniform_int 0 (proc.tipSet.card - 1)).1 with hk
    by_cases hkl : k < l.length
    · have hgd : l.getD k 0 = l[k] := List.getD_eq_getElem l 0 hkl
      rw [hgd]
      exact hsub _ (Finset.mem_sort (α := ℕ) (· ≤ ·) |>.mp (List.getElem_mem hkl))
    · have hgd : l.getD k 0 = 0 := by
        rw [List.getD, List.get?_eq_none.mpr (le_of_not_lt hkl)]
        rfl
      rw [hgd]
      exact hpos

theorem mem_of_getD_lt {l : List ℕ} {k : ℕ} (h : k < l.length) :
    l.getD k 0 ∈ l := by
  rw [List.getD_eq_getElem l 0 h]
  exact List.getElem_mem h

theorem biasedRandomWalkAux_lt (nodes : List TxNode) (proc : Process)
    (expFn : ℚ → ℚ) (alpha : ℚ) (G : GraphInv nodes) :
    ∀ (fuel current : ℕ) (rng : RNG), current < nodes.length →
      ∀ v rng', biasedRandomWalkAux nodes proc expFn alpha fuel current rng = some (v, rng') →
        v < nodes.length := by
  intro fuel
  induction fuel with
  | zero => intro current rng _ v rng' h; exact absurd h (by rw [biasedRandomWalkAux]; simp)
  | succ fuel ih =>
    intro current rng hcur v rng' h
    rw [biasedRandomWalkAux] at h
    set kc := (nodes.getD current default).children.filter
      (fun c => decide (c ∈ proc.knownNodes)) with hkc
    have hkcsub : ∀ c ∈ kc, c < nodes.length := by
      intro c hc
      have := (List.mem_filter.mp (hkc ▸ hc)).1
      exact (G.2.2.2.2.1 current hcur c this).2
    by_cases hem : kc.isEmpty
    · rw [if_pos hem] at h
      have hv : current = v := congrArg Prod.fst (Option.some.inj h)
      exact hv ▸ hcur
    · rw [if_neg hem] at h
      have hkcne : kc ≠ [] := by
        intro hh; rw [hh] at hem; exact hem rfl
      by_cases hneg : (weighted_choice (kc.map
          (fun c => expFn (alpha * ((nodes.getD c default).height : ℚ)))) rng).1 < 0
      · rw [if_pos hneg] at h
        have : v = kc.headD 0 := by
          injection h with h'
          exact (congrArg Prod.fst h').symm
        rw [this]
        cases hcase : kc with
        | nil => exact absurd hcase hkcne
        | cons a l =>
          have : (a :: l).headD 0 = a := rfl
          rw [this]
          exact hkcsub a (by rw [hcase]; exact List.mem_cons_self a l)
      · rw [if_neg hneg] at h
        set wts := kc.map (fun c => expFn (alpha * ((nodes.getD c default).height : ℚ)))
          with hwts
        have hwne : wts ≠ [] := by
          rw [hwts]
          intro hh
          exact hkcne (List.map_eq_nil_iff.mp hh)
        obtain ⟨h0, hlt⟩ := weighted_choice_mem_range wts rng hwne
        have hlenw : wts.length = kc.length := by rw [hwts]; exact List.length_map kc _
        have hlen : (weighted_choice wts rng).1.toNat < kc.length := by omega
        have hnext : kc.getD (weighted_choice wts rng).1.toNat 0 ∈ kc := mem_of_getD_lt hlen
        exact ih _ _ (hkcsub _ hnext) v rng' h

theorem biasedRandomWalk_lt (nodes : List TxNode) (proc : Process)
    (expFn : ℚ → ℚ) (alpha : ℚ) (rng : RNG) (G : GraphInv nodes) :
    (biasedRandomWalk nodes proc expFn alpha rng).1 < nodes.length := by
  rw [biasedRandomWalk]
  cases hcase : biasedRandomWalkAux nodes proc expFn alpha nodes.length 0 rng with
  | none => simp only [hcase, Option.getD_none]; exact G.1
  | some vr =>
    simp only [hcase, Option.getD_some]
    exact biasedRandomWalkAux_lt nodes proc expFn alpha G nodes.length 0 rng G.1
      vr.1 vr.2 (by rw [hcase])

theorem selectOneTip_lt (nodes : List TxNode) (proc : Process) (mode : TipSelectionMode)
    (securityBias alphaHigh : ℚ) (expFn : ℚ → ℚ) (rng : RNG) (G : GraphInv nodes)
    (hsub : ∀ n ∈ proc.tipSet, n < nodes.length) :
    (selectOneTip nodes proc mode securityBias alphaHigh expFn rng).1 < nodes.length := by
  cases mode with
  | RANDOM_ONLY => exact uniformRandomTip_lt nodes proc rng hsub G.1
  | MCMC_ONLY => exact biasedRandomWalk_lt nodes proc expFn alphaHigh rng G
  | HYBRID =>
    rw [selectOneTip]
    by_cases hr : (rng.uniform_double 0 1).1 < securityBias
    · simp only [if_pos hr]
      exact biasedRandomWalk_lt nodes proc expFn alphaHigh _ G
    · simp only [if_neg hr]
      exact uniformRandomTip_lt nodes proc _ hsub G.1

theorem selectTips_lt (nodes : List TxNode) (proc : Process) (mode : TipSelectionMode)
    (securityBias alphaHigh : ℚ) (expFn : ℚ → ℚ) (G : GraphInv nodes)
    (hsub : ∀ n ∈ proc.tipSet, n < nodes.length) :
    ∀ (numTips : ℕ) (rng : RNG),
      ∀ t ∈ (selectTips nodes proc mode securityBias alphaHigh expFn numTips rng).1,
        t < nodes.length := by
  intro numTips
  induction numTips with
  | zero => intro rng t ht; simp [selectTips] at ht
  | succ n ih =>
    intro rng t ht
    rw [selectTips] at ht
    rcases List.mem_cons.mp ht with rfl | ht
    · exact selectOneTip_lt nodes proc mode securityBias alphaHigh expFn rng G hsub
    · exact ih _ t ht

end Tangle

namespace Tangle

/-- Children membership after appending the new node and running the
parent-update loop. -/
theorem create_children_char (nodes : List TxNode) (tips : List ℕ) (now : ℚ)
    (hgt : ℕ) (htips : ∀ t ∈ tips, t < nodes.length) :
    ∀ i c, c ∈ (nodeAt (tips.foldl (addChildTo nodes.length)
        (nodes ++ [⟨nodes.length, now, hgt, tips, []⟩])) i).children ↔
      ((i < nodes.length ∧ c ∈ (nodeAt nodes i).children) ∨
        (c = nodes.length ∧ i ∈ tips)) := by
  intro i c
  set node : TxNode := ⟨nodes.length, now, hgt, tips, []⟩ with hnode
  have hbaselen : (nodes ++ [node]).length = nodes.length + 1 := by simp
  obtain ⟨_, _, hch⟩ := foldl_addChildTo_char nodes.length tips (nodes ++ [node])
    (fun t ht => by rw [hbaselen]; exact lt_trans (htips t ht) (Nat.lt_succ_self _))
  rw [hch i c]
  have hbase : c ∈ (nodeAt (nodes ++ [node]) i).children ↔
      (i < nodes.length ∧ c ∈ (nodeAt nodes i).children) := by
    by_cases hi : i < nodes.length
    · rw [nodeAt_append_lt nodes node i hi]
      simp [hi]
    · rcases Nat.lt_or_ge i (nodes.length + 1) with hi1 | hi1
      · have : i = nodes.length := by omega
        subst this
        rw [nodeAt_append_self nodes node]
        simp [hnode, hi]
      · have : nodeAt (nodes ++ [node]) i = default := by
          rw [nodeAt]
          exact getD_oob _ _ _ (by omega)
        rw [this]
        constructor
        · intro hc
          exact absurd hc (by simp [default, List.not_mem_nil])
        · rintro ⟨hlt, _⟩; omega
  rw [hbase]

/-- The arena invariant survives node creation: appending the node
`⟨len, now, h, tips, []⟩` and back-referencing it from each parent. -/
theorem graphInv_create (nodes : List TxNode) (tips : List ℕ) (now : ℚ) (hgt : ℕ)
    (G : GraphInv nodes) (htips : ∀ t ∈ tips, t < nodes.length) :
    GraphInv (tips.foldl (addChildTo nodes.length)
      (nodes ++ [⟨nodes.length, now, hgt, tips, []⟩])) := by
  set node : TxNode := ⟨nodes.length, now, hgt, tips, []⟩ with hnode
  set nodes2 := tips.foldl (addChildTo nodes.length) (nodes ++ [node]) with hnodes2
  have hbaselen : (nodes ++ [node]).length = nodes.length + 1 := by simp
  obtain ⟨hlen, hfields, _⟩ := foldl_addChildTo_char nodes.length tips (nodes ++ [node])
    (fun t ht => by rw [hbaselen]; exact lt_trans (htips t ht) (Nat.lt_succ_self _))
  have hlen2 : nodes2.length = nodes.length + 1 := by rw [← hbaselen]; exact hlen
  have hch := create_children_char nodes tips now hgt htips
  have hpar : ∀ i, (nodeAt nodes2 i).parents = (nodeAt (nodes ++ [node]) i).parents :=
    fun i => (hfields i).2.1
  have hid : ∀ i, (nodeAt nodes2 i).id = (nodeAt (nodes ++ [node]) i).id :=
    fun i => (hfields i).1
  have hparbase : ∀ i, i < nodes.length + 1 → (nodeAt (nodes ++ [node]) i).parents =
      (if i < nodes.length then (nodeAt nodes i).parents else tips) := by
    intro i hi
    by_cases hilt : i < nodes.length
    · rw [nodeAt_append_lt nodes node i hilt, if_pos hilt]
    · have : i = nodes.length := by omega
      subst this
      rw [nodeAt_append_self nodes node, if_neg hilt]
  refine ⟨by omega, ?_, ?_, ?_, ?_, ?_⟩
  · intro i hi
    rw [hid i]
    rw [hlen2] at hi
    by_cases hilt : i < nodes.length
    · rw [nodeAt_append_lt nodes node i hilt]
      exact G.2.1 i hilt
    · have : i = nodes.length := by omega
      subst this
      rw [nodeAt_append_self nodes node]
  · rw [hpar 0, nodeAt_append_lt nodes node 0 G.1]
    exact G.2.2.1
  · intro i hi p hp
    rw [hlen2] at hi
    rw [hpar i, hparbase i hi] at hp
    by_cases hilt : i < nodes.length
    · rw [if_pos hilt] at hp
      exact G.2.2.2.1 i hilt p hp
    · rw [if_neg hilt] at hp
      have : i = nodes.length := by omega
      subst this
      exact htips p hp
  · intro i hi c hc
    rw [hlen2] at hi ⊢
    rcases (hch i c).mp hc with ⟨hilt, hcold⟩ | ⟨rfl, hitips⟩
    · obtain ⟨h1, h2⟩ := G.2.2.2.2.1 i hilt c hcold
      exact ⟨h1, by omega⟩
    · exact ⟨htips i hitips, by omega⟩
  · intro i c hi hc
    rw [hlen2] at hi hc
    rw [hch i c, hpar c, hparbase c hc]
    by_cases hclt : c < nodes.length
    · rw [if_pos hclt]
      constructor
      · rintro (⟨hilt, hcold⟩ | ⟨rfl, _⟩)
        · exact (G.2.2.2.2.2 i c hilt hclt).mp hcold
        · omega
      · intro hip
        have hilt : i < nodes.length := by
          have := G.2.2.2.1 c hclt i hip
          omega
        exact Or.inl ⟨hilt, (G.2.2.2.2.2 i c hilt hclt).mpr hip⟩
    · rw [if_neg hclt]
      have hc' : c = nodes.length := by omega
      subst hc'
      constructor
      · rintro (⟨hilt, hcold⟩ | ⟨_, hitips⟩)
        · exact absurd (G.2.2.2.2.1 i hilt _ hcold).2 (by omega)
        · exact hitips
      · intro hip
        exact Or.inr ⟨rfl, hip⟩

end Tangle

namespace Tangle

/-- The broadcast loop only appends messages: arena, processes, global tips
are untouched, and the counter advances in lockstep with the ghost log. -/
theorem foldl_broadcastStep_frame (nodeId senderId : ℕ) (minDelay maxDelay now : ℚ) :
    ∀ (l : List Process) (s : SimState),
      (l.foldl (broadcastStep nodeId senderId minDelay maxDelay now) s).nodes = s.nodes ∧
      (l.foldl (broadcastStep nodeId senderId minDelay maxDelay now) s).procs = s.procs ∧
      (l.foldl (broadcastStep nodeId senderId minDelay maxDelay now) s).globalTips =
        s.globalTips ∧
      ((l.foldl (broadcastStep nodeId senderId minDelay maxDelay now) s).messagesSent : Int) -
        (l.foldl (broadcastStep nodeId senderId minDelay maxDelay now) s).scheduled.length =
        (s.messagesSent : Int) - s.scheduled.length := by
  intro l
  induction l with
  | nil => intro s; exact ⟨rfl, rfl, rfl, rfl⟩
  | cons p ps ih =>
    intro s
    rw [List.foldl_cons]
    obtain ⟨h1, h2, h3, h4⟩ := ih (broadcastStep nodeId senderId minDelay maxDelay now s p)
    have hstep : (broadcastStep nodeId senderId minDelay maxDelay now s p).nodes = s.nodes ∧
        (broadcastStep nodeId senderId minDelay maxDelay now s p).procs = s.procs ∧
        (broadcastStep nodeId senderId minDelay maxDelay now s p).globalTips = s.globalTips ∧
        ((broadcastStep nodeId senderId minDelay maxDelay now s p).messagesSent : Int) -
          (broadcastStep nodeId senderId minDelay maxDelay now s p).scheduled.length =
          (s.messagesSent : Int) - s.scheduled.length := by
      rw [broadcastStep]
      by_cases hp : p.id = senderId
      · rw [if_pos hp]; exact ⟨rfl, rfl, rfl, rfl⟩
      · rw [if_neg hp]
        refine ⟨rfl, rfl, rfl, ?_⟩
        simp
    obtain ⟨g1, g2, g3, g4⟩ := hstep
    exact ⟨h1.trans g1, h2.trans g2, h3.trans g3, by rw [h4, g4]⟩

theorem aInv_broadcastNode (C : TangleConfig) (nodeId senderId : ℕ)
    (minDelay maxDelay now : ℚ) (s : SimState) (h : AInv C s) :
    AInv C (broadcastNode nodeId senderId minDelay maxDelay now s) := by
  obtain ⟨G, hplen, hpid, hpok, hmsg⟩ := h
  obtain ⟨h1, h2, h3, h4⟩ :=
    foldl_broadcastStep_frame nodeId senderId minDelay maxDelay now s.procs s
  rw [broadcastNode]
  refine ⟨by rw [h1]; exact G, by rw [h2]; exact hplen, ?_, ?_, ?_⟩
  · intro j hj
    rw [h2] at hj ⊢
    exact hpid j hj
  · intro j hj
    rw [h1, h2] at *
    exact hpok j (by rw [h2] at hj; exact hj)
  · have := h4
    rw [hmsg] at this
    omega

end Tangle

namespace Tangle

theorem create_length (nodes : List TxNode) (tips : List ℕ) (now : ℚ) (hgt : ℕ)
    (htips : ∀ t ∈ tips, t < nodes.length) :
    (tips.foldl (addChildTo nodes.length)
      (nodes ++ [⟨nodes.length, now, hgt, tips, []⟩])).length = nodes.length + 1 := by
  have hbaselen : (nodes ++ [(⟨nodes.length, now, hgt, tips, []⟩ : TxNode)]).length =
      nodes.length + 1 := by simp
  obtain ⟨hlen, _, _⟩ := foldl_addChildTo_char nodes.length tips _
    (fun t ht => by rw [hbaselen]; exact lt_trans (htips t ht) (Nat.lt_succ_self _))
  rw [hlen, hbaselen]

/-- Existing process views keep their invariant across node creation: the new
node is unknown to them, so their visible child lists are unchanged. -/
theorem procOk_create (nodes : List TxNode) (tips : List ℕ) (now : ℚ) (hgt : ℕ)
    (htips : ∀ t ∈ tips, t < nodes.length) (q : Process) (hq : ProcOk nodes q) :
    ProcOk (tips.foldl (addChildTo nodes.length)
      (nodes ++ [⟨nodes.length, now, hgt, tips, []⟩])) q := by
  apply procOk_extend nodes _ q
  · rw [create_length nodes tips now hgt htips]
    omega
  · intro n hn c hc
    rw [create_children_char nodes tips now hgt htips n c]
    have hclen : c < nodes.length := hq.2.1 c hc
    constructor
    · rintro (⟨_, hold⟩ | ⟨rfl, _⟩)
      · exact hold
      · omega
    · intro hold
      exact Or.inl ⟨hn, hold⟩
  · exact hq

theorem aInv_emitOne (C : TangleConfig) (now : ℚ) (st : SimState) (i : ℕ)
    (h : AInv C st) (hi : i < st.procs.length) : AInv C (emitOne C now st i) := by
  obtain ⟨G, hplen, hpid, hpok, hmsg⟩ := h
  simp only [emitOne]
  split
  · -- emission branch
    apply aInv_broadcastNode
    set pr := st.procs.getD i default with hpr
    set sel := selectTips st.nodes pr C.mode C.securityBias C.alphaHigh C.expFn 2
      (st.rng.uniform_double 0 1).2 with hsel
    have hsub : ∀ n ∈ pr.tipSet, n < st.nodes.length := by
      intro n hn
      exact (hpok i hi).2.1 n (((hpok i hi).2.2 n).mp hn).1
    have htips : ∀ t ∈ sel.1, t < st.nodes.length := by
      intro t ht
      exact selectTips_lt st.nodes pr C.mode C.securityBias C.alphaHigh C.expFn G hsub 2 _ t ht
    set maxH := sel.1.foldl (fun mh p => max mh (st.nodes.getD p default).height) 0 with hmaxH
    set nodes2 := sel.1.foldl (addChildTo st.nodes.length)
      (st.nodes ++ [⟨st.nodes.length, now, maxH + 1, sel.1, []⟩]) with hnodes2
    have G2 : GraphInv nodes2 := graphInv_create st.nodes sel.1 now (maxH + 1) G htips
    have hlen2 : nodes2.length = st.nodes.length + 1 :=
      create_length st.nodes sel.1 now (maxH + 1) htips
    refine ⟨G2, ?_, ?_, ?_, ?_⟩
    · rw [List.length_set]
      exact hplen
    · intro j hj
      rw [List.length_set] at hj
      by_cases hij : i = j
      · subst hij
        rw [getD_set_self _ _ _ _ hi, processReceiveNode_id]
        exact hpid i hi
      · rw [getD_set_ne _ _ _ _ _ hij]
        exact hpid j hj
    · intro j hj
      rw [List.length_set] at hj
      by_cases hij : i = j
      · subst hij
        rw [getD_set_self _ _ _ _ hi]
        apply procOk_receive nodes2 pr st.nodes.length G2
        · exact procOk_create st.nodes sel.1 now (maxH + 1) htips pr (hpok i hi)
        · omega
      · rw [getD_set_ne _ _ _ _ _ hij]
        exact procOk_create st.nodes sel.1 now (maxH + 1) htips _ (hpok j hj)
    · exact hmsg
  · exact ⟨G, hplen, hpid, hpok, hmsg⟩

end Tangle

namespace Tangle

theorem applyMessage_procInv (nodes : List TxNode) (procs : List Process) (m : Message)
    (G : GraphInv nodes)
    (hids : ∀ j, j < procs.length → (procs.getD j default).id = j)
    (hok : ∀ j, j < procs.length → ProcOk nodes (procs.getD j default)) :
    (applyMessage nodes procs m).length = procs.length ∧
    (∀ j, j < procs.length → ((applyMessage nodes procs m).getD j default).id = j) ∧
    (∀ j, j < procs.length → ProcOk nodes ((applyMessage nodes procs m).getD j default)) := by
  rw [applyMessage]
  by_cases hn : m.nodeId < nodes.length
  · rw [if_pos hn]
    by_cases hr : m.receiverId < procs.length
    · refine ⟨List.length_set _ _ _, ?_, ?_⟩
      · intro j hj
        by_cases hrj : m.receiverId = j
        · subst hrj
          rw [getD_set_self _ _ _ _ hr, processReceiveNode_id]
          exact hids _ hr
        · rw [getD_set_ne _ _ _ _ _ hrj]
          exact hids j hj
      · intro j hj
        by_cases hrj : m.receiverId = j
        · subst hrj
          rw [getD_set_self _ _ _ _ hr]
          exact procOk_receive nodes _ m.nodeId G (hok _ hr) hn
        · rw [getD_set_ne _ _ _ _ _ hrj]
          exact hok j hj
    · rw [List.set_eq_of_length_le (le_of_not_lt hr)]
      exact ⟨rfl, hids, hok⟩
  · rw [if_neg hn]
    exact ⟨rfl, hids, hok⟩

theorem foldl_applyMessage_procInv (nodes : List TxNode) (G : GraphInv nodes) :
    ∀ (l : List Message) (procs : List Process),
      (∀ j, j < procs.length → (procs.getD j default).id = j) →
      (∀ j, j < procs.length → ProcOk nodes (procs.getD j default)) →
      (l.foldl (applyMessage nodes) procs).length = procs.length ∧
      (∀ j, j < procs.length → ((l.foldl (applyMessage nodes) procs).getD j default).id = j) ∧
      (∀ j, j < procs.length →
        ProcOk nodes ((l.foldl (applyMessage nodes) procs).getD j default)) := by
  intro l
  induction l with
  | nil => intro procs hids hok; exact ⟨rfl, hids, hok⟩
  | cons m ms ih =>
    intro procs hids hok
    rw [List.foldl_cons]
    obtain ⟨h1, h2, h3⟩ := applyMessage_procInv nodes procs m G hids hok
    obtain ⟨g1, g2, g3⟩ := ih (applyMessage nodes procs m)
      (fun j hj => h2 j (h1 ▸ hj)) (fun j hj => h3 j (h1 ▸ hj))
    exact ⟨g1.trans h1, fun j hj => g2 j (h1.symm ▸ hj), fun j hj => g3 j (h1.symm ▸ hj)⟩

theorem aInv_foldl_emitOne (C : TangleConfig) (now : ℚ) :
    ∀ (l : List ℕ) (s : SimState), (∀ i ∈ l, i < C.numProcesses) → AInv C s →
      AInv C (l.foldl (emitOne C now) s) := by
  intro l
  induction l with
  | nil => intro s _ h; exact h
  | cons i is ih =>
    intro s hmem h
    rw [List.foldl_cons]
    exact ih _ (fun j hj => hmem j (List.mem_cons_of_mem i hj))
      (aInv_emitOne C now s i h (by rw [h.2.1]; exact hmem i (List.mem_cons_self i is)))

theorem aInv_simStep (C : TangleConfig) (now : ℚ) (s : SimState) (h : AInv C s) :
    AInv C (simStep C now s).1 := by
  obtain ⟨G, hplen, hpid, hpok, hmsg⟩ := h
  rw [simStep]
  apply aInv_foldl_emitOne C now _ _ (fun i hi => List.mem_range.mp hi)
  obtain ⟨h1, h2, h3⟩ := foldl_applyMessage_procInv s.nodes G
    (s.pq.filter (fun m => decide (m.deliverTime ≤ now))) s.procs hpid hpok
  rw [drain]
  refine ⟨G, ?_, ?_, ?_, hmsg⟩ <;> dsimp only
  · rw [h1]; exact hplen
  · exact fun j hj => h2 j (h1 ▸ hj)
  · exact fun j hj => h3 j (h1 ▸ hj)

theorem aInv_initState (C : TangleConfig) (rng : RNG) :
    AInv C (initState C.numProcesses rng) := by
  refine ⟨⟨by simp [initState], ?_, ?_, ?_, ?_, ?_⟩, ?_, ?_, ?_, ?_⟩
  · intro i hi
    simp [initState] at hi
    subst hi
    rfl
  · rfl
  · intro i hi p hp
    simp [initState] at hi
    subst hi
    simp [nodeAt, initState, List.getD] at hp
  · intro i hi c hc
    simp [initState] at hi
    subst hi
    simp [nodeAt, initState, List.getD] at hc
  · intro i c hi hc
    simp [initState] at hi hc
    subst hi; subst hc
    simp [nodeAt, initState, List.getD]
  · simp [initState]
  · intro j hj
    simp [initState] at hj
    have hp : (initState C.numProcesses rng).procs = (List.range C.numProcesses).map
        (fun i => (⟨i, {0}, {0}⟩ : Process)) := rfl
    rw [hp, getD_map_range _ _ _ _ hj]
  · intro j hj
    simp [initState] at hj
    have hp : (initState C.numProcesses rng).procs = (List.range C.numProcesses).map
        (fun i => (⟨i, {0}, {0}⟩ : Process)) := rfl
    have : ((initState C.numProcesses rng).procs.getD j default) =
        (⟨j, {0}, {0}⟩ : Process) := by
      rw [hp, getD_map_range _ _ _ _ hj]
    rw [this]
    refine ⟨by simp, ?_, ?_⟩
    · intro n hn
      simp at hn
      subst hn
      simp [initState]
    · intro n
      simp only [Finset.mem_singleton]
      constructor
      · rintro rfl
        refine ⟨rfl, ?_⟩
        intro c hc
        simp [nodeAt, initState, List.getD] at hc
      · rintro ⟨rfl, _⟩
        rfl
  · simp [initState]

/-- Every reachable tangle state satisfies the master invariant. -/
theorem reachable_AInv (C : TangleConfig) (s : SimState) (h : Reachable C s) :
    AInv C s := by
  induction h with
  | init rng => exact aInv_initState C rng
  | step s now _ ih => exact aInv_simStep C now s ih

end Tangle

namespace Tangle

theorem biasedRandomWalkAux_isSome (nodes : List TxNode) (proc : Process)
    (expFn : ℚ → ℚ) (alpha : ℚ) (G : GraphInv nodes) :
    ∀ (fuel current : ℕ) (rng : RNG), current < nodes.length →
      nodes.length ≤ current + fuel →
      (biasedRandomWalkAux nodes proc expFn alpha fuel current rng).isSome := by
  intro fuel
  induction fuel with
  | zero => intro current rng hcur hfuel; omega
  | succ fuel ih =>
    intro current rng hcur hfuel
    rw [biasedRandomWalkAux]
    set kc := (nodes.getD current default).children.filter
      (fun c => decide (c ∈ proc.knownNodes)) with hkc
    have hkcgt : ∀ c ∈ kc, current < c ∧ c < nodes.length := by
      intro c hc
      have := (List.mem_filter.mp (hkc ▸ hc)).1
      exact G.2.2.2.2.1 current hcur c this
    by_cases hem : kc.isEmpty
    · rw [if_pos hem]; rfl
    · rw [if_neg hem]
      have hkcne : kc ≠ [] := by
        intro hh; rw [hh] at hem; exact hem rfl
      by_cases hneg : (weighted_choice (kc.map
          (fun c => expFn (alpha * ((nodes.getD c default).height : ℚ)))) rng).1 < 0
      · rw [if_pos hneg]; rfl
      · rw [if_neg hneg]
        set wts := kc.map (fun c => expFn (alpha * ((nodes.getD c default).height : ℚ)))
          with hwts
        have hwne : wts ≠ [] := by
          rw [hwts]
          intro hh
          exact hkcne (List.map_eq_nil_iff.mp hh)
        obtain ⟨h0, hlt⟩ := weighted_choice_mem_range wts rng hwne
        have hlenw : wts.length = kc.length := by rw [hwts]; exact List.length_map kc _
        have hlen : (weighted_choice wts rng).1.toNat < kc.length := by omega
        have hnext := hkcgt _ (mem_of_getD_lt hlen)
        exact ih _ _ hnext.2 (by omega)

end Tangle

/-- C1: in mode A, over every reachable state, a node is in a process's local
tip set iff it is known and has no known child in the full graph; and
`receive` is a no-op on known nodes, while on an unknown node it marks it
known, erases exactly the already-known parents from the tip set, and inserts
the node iff it has no known child. -/
theorem tangle_tipset_correctness (C : Tangle.TangleConfig) (s : Tangle.SimState)
    (hs : Tangle.Reachable C s) :
    (∀ j, j < s.procs.length → ∀ n,
      n ∈ (s.procs.getD j default).tipSet ↔
        (n ∈ (s.procs.getD j default).knownNodes ∧
          ∀ c ∈ (Tangle.nodeAt s.nodes n).children,
            c ∉ (s.procs.getD j default).knownNodes)) ∧
    (∀ (pr : Tangle.Process) (nodeId : ℕ), nodeId ∈ pr.knownNodes →
      Tangle.processReceiveNode s.nodes pr nodeId = pr) ∧
    (∀ j, j < s.procs.length → ∀ nodeId, nodeId < s.nodes.length →
      nodeId ∉ (s.procs.getD j default).knownNodes →
      ((Tangle.processReceiveNode s.nodes (s.procs.getD j default) nodeId).knownNodes =
        insert nodeId (s.procs.getD j default).knownNodes ∧
      ∀ m, m ∈ (Tangle.processReceiveNode s.nodes (s.procs.getD j default) nodeId).tipSet ↔
        (if m = nodeId then
          ∀ c ∈ (Tangle.nodeAt s.nodes nodeId).children,
            c ∉ insert nodeId (s.procs.getD j default).knownNodes
        else
          m ∈ (s.procs.getD j default).tipSet ∧
            ¬(m ∈ (Tangle.nodeAt s.nodes nodeId).parents ∧
              m ∈ (s.procs.getD j default).knownNodes)))) := by
  obtain ⟨G, hplen, hpid, hpok, hmsg⟩ := Tangle.reachable_AInv C s hs
  refine ⟨?_, ?_, ?_⟩
  · intro j hj n
    exact (hpok j hj).2.2 n
  · intro pr nodeId h
    exact Tangle.processReceiveNode_known s.nodes pr nodeId h
  · intro j hj nodeId hlen hk
    have htip : nodeId ∉ (s.procs.getD j default).tipSet :=
      fun ht => hk (((hpok j hj).2.2 nodeId).mp ht).1
    exact ⟨Tangle.processReceiveNode_knownNodes s.nodes _ nodeId hk,
      fun m => Tangle.processReceiveNode_tipSet s.nodes _ nodeId hk htip m⟩

/-- A fixed concrete configuration for witnesses. -/
def cfg0 : Tangle.TangleConfig :=
  ⟨1, 0, 1, 5, TipSelectionMode.RANDOM_ONLY, 7/10, 1/1000, fun _ => 1⟩

/-- C1 witness: the tip-set characterisation evaluated at the initial state
of a one-process run, at node 0. -/
theorem tangle_tipset_correctness_witness :
    (0 ∈ ((Tangle.initState cfg0.numProcesses zeroRng).procs.getD 0 default).tipSet ↔
      (0 ∈ ((Tangle.initState cfg0.numProcesses zeroRng).procs.getD 0 default).knownNodes ∧
        ∀ c ∈ (Tangle.nodeAt (Tangle.initState cfg0.numProcesses zeroRng).nodes 0).children,
          c ∉ ((Tangle.initState cfg0.numProcesses zeroRng).procs.getD 0 default).knownNodes)) :=
  (tangle_tipset_correctness cfg0 (Tangle.initState cfg0.numProcesses zeroRng)
    (Tangle.Reachable.init zeroRng)).1 0 (by decide) 0

/-- C9: in mode A, over every reachable state, every process's local tip set
is non-empty — the maximum known node id is always a local tip — so the
empty-tip-set genesis fallback in `uniformRandomTip` is never taken, and the
selection always returns an element of the tip set. -/
theorem tangle_tipset_nonempty (C : Tangle.TangleConfig) (s : Tangle.SimState)
    (hs : Tangle.Reachable C s) :
    ∀ j, j < s.procs.length →
      (¬ (s.procs.getD j default).tipSet = ∅) ∧
      (∃ M, M ∈ (s.procs.getD j default).knownNodes ∧
        (∀ n ∈ (s.procs.getD j default).knownNodes, n ≤ M) ∧
        M ∈ (s.procs.getD j default).tipSet) ∧
      (∀ rng, (Tangle.uniformRandomTip (s.procs.getD j default) rng).1 ∈
        (s.procs.getD j default).tipSet) := by
  obtain ⟨G, hplen, hpid, hpok, hmsg⟩ := Tangle.reachable_AInv C s hs
  intro j hj
  obtain ⟨h0, hbound, htipchar⟩ := hpok j hj
  set pr := s.procs.getD j default with hpr
  have hne : pr.knownNodes.Nonempty := ⟨0, h0⟩
  set M := pr.knownNodes.max' hne with hM
  have hMmem : M ∈ pr.knownNodes := pr.knownNodes.max'_mem hne
  have hMtip : M ∈ pr.tipSet := by
    rw [htipchar M]
    refine ⟨hMmem, ?_⟩
    intro c hc hck
    have hchild := (G.2.2.2.2.1 M (hbound M hMmem) c hc).1
    have := pr.knownNodes.le_max' c hck
    omega
  have hnonempty : ¬ pr.tipSet = ∅ := by
    intro hh
    rw [hh] at hMtip
    exact absurd hMtip (Finset.not_mem_empty M)
  refine ⟨hnonempty, ⟨M, hMmem, fun n hn => pr.knownNodes.le_max' n hn, hMtip⟩, ?_⟩
  intro rng
  rw [Tangle.uniformRandomTip, if_neg hnonempty]
  show (pr.tipSet.sort (· ≤ ·)).getD (rng.uniform_int 0 (pr.tipSet.card - 1)).1 0 ∈ pr.tipSet
  have hcard : 0 < pr.tipSet.card := Finset.card_pos.mpr ⟨M, hMtip⟩
  have hklen : (rng.uniform_int 0 (pr.tipSet.card - 1)).1 < (pr.tipSet.sort (· ≤ ·)).length := by
    rw [Finset.length_sort]
    exact RNG.uniform_int_lt rng pr.tipSet.card hcard
  exact (Finset.mem_sort (α := ℕ) (· ≤ ·)).mp (Tangle.mem_of_getD_lt hklen)

/-- C9 witness at the initial state of a one-process run. -/
theorem tangle_tipset_nonempty_witness :
    (¬ ((Tangle.initState cfg0.numProcesses zeroRng).procs.getD 0 default).tipSet = ∅) ∧
    (∃ M, M ∈ ((Tangle.initState cfg0.numProcesses zeroRng).procs.getD 0 default).knownNodes ∧
      (∀ n ∈ ((Tangle.initState cfg0.numProcesses zeroRng).procs.getD 0 default).knownNodes,
        n ≤ M) ∧
      M ∈ ((Tangle.initState cfg0.numProcesses zeroRng).procs.getD 0 default).tipSet) ∧
    (∀ rng, (Tangle.uniformRandomTip
        ((Tangle.initState cfg0.numProcesses zeroRng).procs.getD 0 default) rng).1 ∈
      ((Tangle.initState cfg0.numProcesses zeroRng).procs.getD 0 default).tipSet) :=
  tangle_tipset_nonempty cfg0 (Tangle.initState cfg0.numProcesses zeroRng)
    (Tangle.Reachable.init zeroRng) 0 (by decide)

/-- C10: over every reachable mode A state, from any known position the
biased walk only ever moves to a known child of strictly greater id, and with
fuel equal to the arena size it always terminates (in particular from
genesis), so the unbounded C++ loop terminates within `|nodes|` iterations. -/
theorem tangle_walk_terminates (C : Tangle.TangleConfig) (s : Tangle.SimState)
    (hs : Tangle.Reachable C s) (pr : Tangle.Process) (expFn : ℚ → ℚ) (alpha : ℚ) :
    (∀ current, current < s.nodes.length →
      ∀ c ∈ (s.nodes.getD current default).children.filter
        (fun c => decide (c ∈ pr.knownNodes)), current < c) ∧
    (∀ (fuel current : ℕ) (rng : RNG), current < s.nodes.length →
      s.nodes.length ≤ current + fuel →
      (Tangle.biasedRandomWalkAux s.nodes pr expFn alpha fuel current rng).isSome) ∧
    (∀ rng : RNG,
      (Tangle.biasedRandomWalkAux s.nodes pr expFn alpha s.nodes.length 0 rng).isSome) := by
  obtain ⟨G, _, _, _, _⟩ := Tangle.reachable_AInv C s hs
  refine ⟨?_, ?_, ?_⟩
  · intro current hcur c hc
    exact (G.2.2.2.2.1 current hcur c (List.mem_filter.mp hc).1).1
  · intro fuel current rng hcur hfuel
    exact Tangle.biasedRandomWalkAux_isSome s.nodes pr expFn alpha G fuel current rng hcur hfuel
  · intro rng
    exact Tangle.biasedRandomWalkAux_isSome s.nodes pr expFn alpha G s.nodes.length 0 rng G.1
      (by omega)

/-- C10 witness at the initial state: the walk from genesis with fuel 1
succeeds. -/
theorem tangle_walk_terminates_witness :
    (Tangle.biasedRandomWalkAux
      (Tangle.initState cfg0.numProcesses zeroRng).nodes
      ((Tangle.initState cfg0.numProcesses zeroRng).procs.getD 0 default)
      (fun _ => 1) (1/1000)
      (Tangle.initState cfg0.numProcesses zeroRng).nodes.length 0 zeroRng).isSome :=
  (tangle_walk_terminates cfg0 (Tangle.initState cfg0.numProcesses zeroRng)
    (Tangle.Reachable.init zeroRng)
    ((Tangle.initState cfg0.numProcesses zeroRng).procs.getD 0 default)
    (fun _ => 1) (1/1000)).2.2 zeroRng

namespace Witness

/-- The block stored at index `i` of the arena. -/
def wnodeAt (wnodes : List WNode) (i : ℕ) : WNode := wnodes.getD i default

/-- Master invariant of a witness run: ids equal indices, genesis has no
parents and owner `-1`, parents strictly precede their block, timestamps are
non-negative, one user per index, own-chain heads are `-1` or valid ids, and
knowledge stays in range. -/
def WInv (s : WState) : Prop :=
  0 < s.wnodes.length ∧
  (∀ i, i < s.wnodes.length → (wnodeAt s.wnodes i).id = i) ∧
  (wnodeAt s.wnodes 0).parents = [] ∧
  (∀ i, i < s.wnodes.length → ∀ p ∈ (wnodeAt s.wnodes i).parents, p < i) ∧
  (∀ i, i < s.wnodes.length → 0 ≤ (wnodeAt s.wnodes i).timestamp) ∧
  s.procs.length = s.numUsers ∧
  (∀ j, j < s.procs.length →
    (s.procs.getD j default).id = j ∧
    ((s.procs.getD j default).lastBlockId = -1 ∨
      (0 ≤ (s.procs.getD j default).lastBlockId ∧
        (s.procs.getD j default).lastBlockId.toNat < s.wnodes.length)) ∧
    (∀ n ∈ (s.procs.getD j default).knownBlocks, n < s.wnodes.length))

/-- Invariant of one `bestBlock`/`bestTs` entry after scanning the block ids
`l`: either still the initial `(-1, -1)` with no scanned in-range block of
owner `o`, or the most-recent scanned block of owner `o`. -/
def BestEntryOk (wnodes : List WNode) (l : List ℕ) (o : ℕ) (e : Int × ℚ) : Prop :=
  (e = (-1, -1) ∧ ∀ b ∈ l, b < wnodes.length → (wnodeAt wnodes b).owner ≠ (o : Int)) ∨
  (0 ≤ e.1 ∧ e.1.toNat < wnodes.length ∧ e.1.toNat ∈ l ∧
    (wnodeAt wnodes e.1.toNat).owner = (o : Int) ∧
    (wnodeAt wnodes e.1.toNat).timestamp = e.2 ∧
    ∀ b ∈ l, b < wnodes.length → (wnodeAt wnodes b).owner = (o : Int) →
      (wnodeAt wnodes b).timestamp ≤ e.2)

theorem BestEntryOk_snoc_no (wnodes : List WNode) (l0 : List ℕ) (o : ℕ) (e : Int × ℚ)
    (bid : ℕ) (h : BestEntryOk wnodes l0 o e)
    (hno : ¬(bid < wnodes.length ∧ (wnodeAt wnodes bid).owner = (o : Int))) :
    BestEntryOk wnodes (l0 ++ [bid]) o e := by
  rcases h with ⟨he, hall⟩ | ⟨h1, h2, h3, h4, h5, h6⟩
  · refine Or.inl ⟨he, ?_⟩
    intro b hb hblen
    rcases List.mem_append.mp hb with hb | hb
    · exact hall b hb hblen
    · rw [List.mem_singleton] at hb
      subst hb
      exact fun hc => hno ⟨hblen, hc⟩
  · refine Or.inr ⟨h1, h2, List.mem_append_left _ h3, h4, h5, ?_⟩
    intro b hb hblen hown
    rcases List.mem_append.mp hb with hb | hb
    · exact h6 b hb hblen hown
    · rw [List.mem_singleton] at hb
      subst hb
      exact absurd ⟨hblen, hown⟩ hno

theorem bestStep_ok (wnodes : List WNode) (procId : ℕ)
    (hts : ∀ b, b < wnodes.length → -1 < (wnodeAt wnodes b).timestamp)
    (l0 : List ℕ) (best : List (Int × ℚ)) (bid : ℕ)
    (h : ∀ o, o < best.length → o ≠ procId →
      BestEntryOk wnodes l0 o (best.getD o (-1, -1))) :
    (bestStep wnodes procId best bid).length = best.length ∧
    (∀ o, o < best.length → o ≠ procId →
      BestEntryOk wnodes (l0 ++ [bid]) o ((bestStep wnodes procId best bid).getD o (-1, -1))) := by
  rw [bestStep]
  by_cases hbl : bid < wnodes.length
  · rw [if_pos hbl]
    set n := wnodes.getD bid default with hn
    have hnn : n = wnodeAt wnodes bid := rfl
    by_cases hneg : n.owner < 0
    · rw [if_pos hneg]
      refine ⟨rfl, fun o ho hop => ?_⟩
      apply BestEntryOk_snoc_no wnodes l0 o _ bid (h o ho hop)
      rintro ⟨_, hown⟩
      rw [← hnn] at hown
      omega
    · rw [if_neg hneg]
      by_cases hself : n.owner = (procId : Int)
      · rw [if_pos hself]
        refine ⟨rfl, fun o ho hop => ?_⟩
        apply BestEntryOk_snoc_no wnodes l0 o _ bid (h o ho hop)
        rintro ⟨_, hown⟩
        rw [← hnn, hself] at hown
        exact hop (by exact_mod_cast hown.symm)
      · rw [if_neg hself]
        by_cases hstore : (best.getD n.owner.toNat (-1, -1)).2 < n.timestamp
        · rw [if_pos hstore]
          refine ⟨List.length_set _ _ _, fun o ho hop => ?_⟩
          by_cases hoo : n.owner.toNat = o
          · subst hoo
            rw [getD_set_self _ _ _ _ ho]
            refine Or.inr ⟨Int.ofNat_nonneg bid, ?_, ?_, ?_, rfl, ?_⟩
            · simpa using hbl
            · exact List.mem_append_right _ (by simp)
            · show (wnodeAt wnodes ((bid : Int)).toNat).owner = ((n.owner.toNat : ℕ) : Int)
              rw [Int.toNat_ofNat, ← hnn]
              exact (Int.toNat_of_nonneg (by omega)).symm
            · intro b hb hblen hown
              rcases List.mem_append.mp hb with hb | hb
              · rcases h _ ho hop with ⟨he, hall⟩ | ⟨_, _, _, _, h5, h6⟩
                · exact absurd hown (hall b hb hblen)
                · have := h6 b hb hblen hown
                  simp only [Int.toNat_ofNat, ← hnn]
                  exact le_of_lt (lt_of_le_of_lt this hstore)
              · rw [List.mem_singleton] at hb
                subst hb
                simp [← hnn]
          · rw [getD_set_ne _ _ _ _ _ hoo]
            apply BestEntryOk_snoc_no wnodes l0 o _ bid (h o ho hop)
            rintro ⟨_, hown⟩
            rw [← hnn] at hown
            apply hoo
            rw [hown]
            simp
        · rw [if_neg hstore]
          refine ⟨rfl, fun o ho hop => ?_⟩
          by_cases hoo : n.owner.toNat = o
          · subst hoo
            rcases h _ ho hop with ⟨he, _⟩ | ⟨h1, h2, h3, h4, h5, h6⟩
            · exfalso
              rw [he] at hstore
              rw [hnn] at hstore
              exact hstore (hts bid hbl)
            · refine Or.inr ⟨h1, h2, List.mem_append_left _ h3, h4, h5, ?_⟩
              intro b hb hblen hown
              rcases List.mem_append.mp hb with hb | hb
              · exact h6 b hb hblen hown
              · rw [List.mem_singleton] at hb
                subst hb
                rw [← hnn]
                exact le_of_not_lt hstore
          · apply BestEntryOk_snoc_no wnodes l0 o _ bid (h o ho hop)
            rintro ⟨_, hown⟩
            rw [← hnn] at hown
            apply hoo
            rw [hown]
            simp
  · rw [if_neg hbl]
    refine ⟨rfl, fun o ho hop => ?_⟩
    apply BestEntryOk_snoc_no wnodes l0 o _ bid (h o ho hop)
    rintro ⟨hc, _⟩
    exact hbl hc

end Witness

namespace Witness

theorem bestFold_ok (wnodes : List WNode) (procId : ℕ)
    (hts : ∀ b, b < wnodes.length → -1 < (wnodeAt wnodes b).timestamp) :
    ∀ (l : List ℕ) (best : List (Int × ℚ)) (l0 : List ℕ),
      (∀ o, o < best.length → o ≠ procId →
        BestEntryOk wnodes l0 o (best.getD o (-1, -1))) →
      (l.foldl (bestStep wnodes procId) best).length = best.length ∧
      (∀ o, o < best.length → o ≠ procId →
        BestEntryOk wnodes (l0 ++ l) o
          ((l.foldl (bestStep wnodes procId) best).getD o (-1, -1))) := by
  intro l
  induction l with
  | nil =>
    intro best l0 h
    refine ⟨rfl, fun o ho hop => ?_⟩
    rw [List.append_nil]
    exact h o ho hop
  | cons bid bids ih =>
    intro best l0 h
    rw [List.foldl_cons]
    obtain ⟨hlen, hok⟩ := bestStep_ok wnodes procId hts l0 best bid h
    obtain ⟨glen, gok⟩ := ih (bestStep wnodes procId best bid) (l0 ++ [bid])
      (fun o ho hop => hok o (hlen ▸ ho) hop)
    refine ⟨glen.trans hlen, fun o ho hop => ?_⟩
    have := gok o (by omega) hop
    rw [List.append_assoc] at this
    simpa using this

theorem insertByTsDesc_perm (c : Cand) (l : List Cand) :
    (insertByTsDesc c l).Perm (c :: l) := by
  induction l with
  | nil => exact List.Perm.refl _
  | cons d ds ih =>
    rw [insertByTsDesc]
    by_cases hlt : d.ts < c.ts
    · rw [if_pos hlt]
    · rw [if_neg hlt]
      exact (List.Perm.cons d ih).trans (List.Perm.swap c d ds)

theorem sortByTsDesc_perm (l : List Cand) : (sortByTsDesc l).Perm l := by
  induction l with
  | nil => exact List.Perm.refl _
  | cons c cs ih =>
    rw [sortByTsDesc, List.foldr_cons]
    exact (insertByTsDesc_perm c _).trans (List.Perm.cons c ih)

theorem insertByTsDesc_pairwise (c : Cand) (l : List Cand)
    (h : l.Pairwise (fun a b => b.ts ≤ a.ts)) :
    (insertByTsDesc c l).Pairwise (fun a b => b.ts ≤ a.ts) := by
  induction l with
  | nil => exact List.pairwise_singleton _ c
  | cons d ds ih =>
    rw [insertByTsDesc]
    obtain ⟨hd, hds⟩ := List.pairwise_cons.mp h
    by_cases hlt : d.ts < c.ts
    · rw [if_pos hlt]
      refine List.pairwise_cons.mpr ⟨?_, h⟩
      intro x hx
      rcases List.mem_cons.mp hx with rfl | hx
      · exact le_of_lt hlt
      · exact le_trans (hd x hx) (le_of_lt hlt)
    · rw [if_neg hlt]
      refine List.pairwise_cons.mpr ⟨?_, ih hds⟩
      intro x hx
      have hx' : x ∈ c :: ds := (insertByTsDesc_perm c ds).mem_iff.mp hx
      rcases List.mem_cons.mp hx' with rfl | hx'
      · exact le_of_not_lt hlt
      · exact hd x hx'

theorem sortByTsDesc_pairwise (l : List Cand) :
    (sortByTsDesc l).Pairwise (fun a b => b.ts ≤ a.ts) := by
  induction l with
  | nil => exact List.Pairwise.nil
  | cons c cs ih =>
    rw [sortByTsDesc, List.foldr_cons]
    exact insertByTsDesc_pairwise c _ ih

/-- C4 support: every selected witness is a known, in-range block of a
non-genesis owner other than the requester, most recent among the known
blocks of its owner; at most `maxWitnesses` are returned, in order of
non-increasing timestamp. -/
theorem selectWitnesses_spec (numUsers : ℕ) (wnodes : List WNode) (proc : WProcess)
    (maxWitnesses : ℕ)
    (hts : ∀ b, b < wnodes.length → -1 < (wnodeAt wnodes b).timestamp) :
    (selectWitnesses numUsers wnodes proc maxWitnesses).length ≤ maxWitnesses ∧
    (∀ w ∈ selectWitnesses numUsers wnodes proc maxWitnesses,
      w < wnodes.length ∧ w ∈ proc.knownBlocks ∧
      0 ≤ (wnodeAt wnodes w).owner ∧ (wnodeAt wnodes w).owner ≠ (proc.id : Int) ∧
      (wnodeAt wnodes w).owner.toNat < numUsers ∧
      (∀ b ∈ proc.knownBlocks, b < wnodes.length →
        (wnodeAt wnodes b).owner = (wnodeAt wnodes w).owner →
        (wnodeAt wnodes b).timestamp ≤ (wnodeAt wnodes w).timestamp)) ∧
    (selectWitnesses numUsers wnodes proc maxWitnesses).Pairwise
      (fun a b => (wnodeAt wnodes b).timestamp ≤ (wnodeAt wnodes a).timestamp) := by
  rw [selectWitnesses]
  set best := (proc.knownBlocks.sort (· ≤ ·)).foldl (bestStep wnodes proc.id)
    (List.replicate numUsers (-1, -1)) with hbest
  obtain ⟨hblen, hbok⟩ := bestFold_ok wnodes proc.id hts
    (proc.knownBlocks.sort (· ≤ ·)) (List.replicate numUsers (-1, -1)) []
    (fun o ho hop => Or.inl ⟨by
        rw [getD_replicate _ _ _ _ (by simpa using ho)], by simp⟩)
  rw [List.length_replicate] at hblen hbok
  set cands := (List.range numUsers).filterMap
    (fun o =>
      if o = proc.id then none
      else
        let b := best.getD o (-1, -1)
        if b.1 ≠ -1 then some (⟨o, b.1.toNat, b.2⟩ : Cand) else none) with hcands
  have hcand_ok : ∀ c ∈ cands, c.blockId < wnodes.length ∧ c.blockId ∈ proc.knownBlocks ∧
      (wnodeAt wnodes c.blockId).owner = (c.owner : Int) ∧ c.owner ≠ proc.id ∧
      c.owner < numUsers ∧ (wnodeAt wnodes c.blockId).timestamp = c.ts ∧
      (∀ b ∈ proc.knownBlocks, b < wnodes.length →
        (wnodeAt wnodes b).owner = (c.owner : Int) →
        (wnodeAt wnodes b).timestamp ≤ c.ts) := by
    intro c hc
    rw [hcands] at hc
    obtain ⟨o, ho, hfo⟩ := List.mem_filterMap.mp hc
    have honum : o < numUsers := List.mem_range.mp ho
    by_cases hop : o = proc.id
    · rw [if_pos hop] at hfo; exact absurd hfo (by simp)
    · rw [if_neg hop] at hfo
      by_cases hne : (best.getD o (-1, -1)).1 ≠ -1
      · rw [if_pos hne] at hfo
        have hceq : c = ⟨o, (best.getD o (-1, -1)).1.toNat, (best.getD o (-1, -1)).2⟩ :=
          (Option.some.inj hfo).symm
        rcases hbok o honum hop with ⟨he, _⟩ | ⟨h1, h2, h3, h4, h5, h6⟩
        · exact absurd (by rw [he]) hne
        · subst hceq
          refine ⟨h2, ?_, h4, hop, honum, h5, ?_⟩
          · have h3' := h3
            rw [List.nil_append] at h3'
            exact (Finset.mem_sort (α := ℕ) (· ≤ ·)).mp h3'
          · intro b hb hblen hbo
            apply h6 b
            · rw [List.nil_append]
              exact (Finset.mem_sort (α := ℕ) (· ≤ ·)).mpr hb
            · exact hblen
            · exact hbo
      · rw [if_neg hne] at hfo; exact absurd hfo (by simp)
  have hsortmem : ∀ c ∈ (sortByTsDesc cands).take maxWitnesses, c ∈ cands := by
    intro c hc
    exact (sortByTsDesc_perm cands).mem_iff.mp (List.mem_of_mem_take hc)
  refine ⟨?_, ?_, ?_⟩
  · rw [List.length_map]
    exact le_trans (List.length_take_le _ _) (le_refl _)
  · intro w hw
    obtain ⟨c, hc, rfl⟩ := List.mem_map.mp hw
    obtain ⟨g1, g2, g3, g4, g5, g6, g7⟩ := hcand_ok c (hsortmem c hc)
    refine ⟨g1, g2, by rw [g3]; exact Int.ofNat_nonneg _, ?_, ?_, ?_⟩
    · rw [g3]
      intro hcon
      exact g4 (by exact_mod_cast hcon)
    · rw [g3, Int.toNat_ofNat]
      exact g5
    · intro b hb hblen hbo
      rw [g6]
      exact g7 b hb hblen (by rw [← g3]; exact hbo)
  · rw [List.pairwise_map]
    have hpw : ((sortByTsDesc cands).take maxWitnesses).Pairwise
        (fun a b => b.ts ≤ a.ts) :=
      (sortByTsDesc_pairwise cands).sublist (List.take_sublist _ _)
    refine List.Pairwise.imp_of_mem ?_ hpw
    intro a b ha hb hab
    obtain ⟨_, _, _, _, _, ga, _⟩ := hcand_ok a (hsortmem a ha)
    obtain ⟨_, _, _, _, _, gb, _⟩ := hcand_ok b (hsortmem b hb)
    rw [ga, gb]
    exact hab

end Witness

namespace Witness

theorem foldl_wbroadcastStep_frame (nodeId senderId : ℕ) (minDelay maxDelay now : ℚ) :
    ∀ (l : List WProcess) (s : WState),
      (l.foldl (broadcastStep nodeId senderId minDelay maxDelay now) s).wnodes = s.wnodes ∧
      (l.foldl (broadcastStep nodeId senderId minDelay maxDelay now) s).procs = s.procs ∧
      (l.foldl (broadcastStep nodeId senderId minDelay maxDelay now) s).globalLeaves =
        s.globalLeaves ∧
      (l.foldl (broadcastStep nodeId senderId minDelay maxDelay now) s).numUsers =
        s.numUsers := by
  intro l
  induction l with
  | nil => intro s; exact ⟨rfl, rfl, rfl, rfl⟩
  | cons p ps ih =>
    intro s
    rw [List.foldl_cons]
    obtain ⟨h1, h2, h3, h4⟩ := ih (broadcastStep nodeId senderId minDelay maxDelay now s p)
    have hstep : (broadcastStep nodeId senderId minDelay maxDelay now s p).wnodes = s.wnodes ∧
        (broadcastStep nodeId senderId minDelay maxDelay now s p).procs = s.procs ∧
        (broadcastStep nodeId senderId minDelay maxDelay now s p).globalLeaves =
          s.globalLeaves ∧
        (broadcastStep nodeId senderId minDelay maxDelay now s p).numUsers = s.numUsers := by
      rw [broadcastStep]
      by_cases hp : p.id = senderId
      · rw [if_pos hp]; exact ⟨rfl, rfl, rfl, rfl⟩
      · rw [if_neg hp]; exact ⟨rfl, rfl, rfl, rfl⟩
    obtain ⟨g1, g2, g3, g4⟩ := hstep
    exact ⟨h1.trans g1, h2.trans g2, h3.trans g3, h4.trans g4⟩

theorem wbroadcastNode_frame (nodeId senderId : ℕ) (minDelay maxDelay now : ℚ)
    (s : WState) :
    (broadcastNode nodeId senderId minDelay maxDelay now s).wnodes = s.wnodes ∧
    (broadcastNode nodeId senderId minDelay maxDelay now s).procs = s.procs ∧
    (broadcastNode nodeId senderId minDelay maxDelay now s).globalLeaves = s.globalLeaves ∧
    (broadcastNode nodeId senderId minDelay maxDelay now s).numUsers = s.numUsers :=
  foldl_wbroadcastStep_frame nodeId senderId minDelay maxDelay now s.procs s

theorem wnodeAt_append_lt (wnodes : List WNode) (node : WNode) (i : ℕ)
    (h : i < wnodes.length) : wnodeAt (wnodes ++ [node]) i = wnodeAt wnodes i :=
  List.getD_append _ _ _ _ h

theorem wnodeAt_append_self (wnodes : List WNode) (node : WNode) :
    wnodeAt (wnodes ++ [node]) wnodes.length = node := by
  rw [wnodeAt, List.getD_append_right _ _ _ _ (le_refl _)]
  simp

/-- A `set` whose value keeps the id, owner, timestamp and parents of the
overwritten entry leaves those fields of every slot unchanged. -/
theorem set_fields_frame (l : List WNode) (p : ℕ) (v : WNode)
    (hid : v.id = (l.getD p default).id)
    (hpar : v.parents = (l.getD p default).parents)
    (hown : v.owner = (l.getD p default).owner)
    (hts : v.timestamp = (l.getD p default).timestamp) :
    ∀ i, ((l.set p v).getD i default).id = (l.getD i default).id ∧
      ((l.set p v).getD i default).parents = (l.getD i default).parents ∧
      ((l.set p v).getD i default).owner = (l.getD i default).owner ∧
      ((l.set p v).getD i default).timestamp = (l.getD i default).timestamp := by
  intro i
  by_cases hpl : p < l.length
  · by_cases hpi : p = i
    · subst hpi
      rw [getD_set_self _ _ _ _ hpl]
      exact ⟨hid, hpar, hown, hts⟩
    · rw [getD_set_ne _ _ _ _ _ hpi]
      exact ⟨rfl, rfl, rfl, rfl⟩
  · rw [getD_set_oob _ _ _ _ _ (le_of_not_lt hpl)]
    exact ⟨rfl, rfl, rfl, rfl⟩

theorem linkParent_frame (newId : ℕ) (acc : List WNode × Finset ℕ) (p : ℕ) :
    ((linkParent newId acc p).1.length = acc.1.length) ∧
    (∀ i, ((linkParent newId acc p).1.getD i default).id = (acc.1.getD i default).id ∧
      ((linkParent newId acc p).1.getD i default).parents = (acc.1.getD i default).parents ∧
      ((linkParent newId acc p).1.getD i default).owner = (acc.1.getD i default).owner ∧
      ((linkParent newId acc p).1.getD i default).timestamp =
        (acc.1.getD i default).timestamp) := by
  rw [linkParent]
  by_cases hleaf : (acc.1.getD p default).isLeaf
  · rw [if_pos hleaf]
    exact ⟨List.length_set _ _ _, set_fields_frame acc.1 p _ rfl rfl rfl rfl⟩
  · rw [if_neg hleaf]
    exact ⟨List.length_set _ _ _, set_fields_frame acc.1 p _ rfl rfl rfl rfl⟩

theorem foldl_linkParent_frame (newId : ℕ) :
    ∀ (ps : List ℕ) (acc : List WNode × Finset ℕ),
      ((ps.foldl (linkParent newId) acc).1.length = acc.1.length) ∧
      (∀ i, ((ps.foldl (linkParent newId) acc).1.getD i default).id =
          (acc.1.getD i default).id ∧
        ((ps.foldl (linkParent newId) acc).1.getD i default).parents =
          (acc.1.getD i default).parents ∧
        ((ps.foldl (linkParent newId) acc).1.getD i default).owner =
          (acc.1.getD i default).owner ∧
        ((ps.foldl (linkParent newId) acc).1.getD i default).timestamp =
          (acc.1.getD i default).timestamp) := by
  intro ps
  induction ps with
  | nil => intro acc; exact ⟨rfl, fun i => ⟨rfl, rfl, rfl, rfl⟩⟩
  | cons p ps ih =>
    intro acc
    rw [List.foldl_cons]
    obtain ⟨hlen, hfields⟩ := ih (linkParent newId acc p)
    obtain ⟨glen, gfields⟩ := linkParent_frame newId acc p
    refine ⟨hlen.trans glen, fun i => ?_⟩
    obtain ⟨a, b, c, d⟩ := hfields i
    obtain ⟨a', b', c', d'⟩ := gfields i
    exact ⟨a.trans a', b.trans b', c.trans c', d.trans d'⟩

end Witness

namespace Witness

theorem WInv_congr (s s' : WState) (hw : s'.wnodes = s.wnodes) (hp : s'.procs = s.procs)
    (hn : s'.numUsers = s.numUsers) (h : WInv s) : WInv s' := by
  unfold WInv at h ⊢
  rw [hw, hp, hn]
  exact h

theorem selectWitnesses_zero (numUsers : ℕ) (wnodes : List WNode) (proc : WProcess) :
    selectWitnesses numUsers wnodes proc 0 = [] := by
  rw [selectWitnesses]
  simp

end Witness

namespace Witness

/-- Full characterisation of the emission branch of phase 2 (the posting draw
succeeded): the arena gains exactly the new block, whose parent list is the
own-chain parent followed by the selected witnesses with the own-chain parent
filtered out; older blocks keep id, parents, owner and timestamp; the posting
user's state advances to the new block. -/
theorem wEmit_arena (pp minDelay maxDelay : ℚ) (mw : ℕ) (now : ℚ) (st : WState) (i : ℕ)
    (hr : (st.rng.uniform_double 0 1).1 < pp) :
    (emitOne pp minDelay maxDelay mw now st i).wnodes.length = st.wnodes.length + 1 ∧
    (∀ j, (wnodeAt (emitOne pp minDelay maxDelay mw now st i).wnodes j).id =
        (wnodeAt (st.wnodes ++
          [⟨st.wnodes.length, ((st.procs.getD i default).id : Int), now,
            (if (st.procs.getD i default).lastBlockId ≠ -1
              then (st.procs.getD i default).lastBlockId.toNat else 0) ::
            (selectWitnesses st.numUsers st.wnodes (st.procs.getD i default) mw).filter
              (fun w => w ≠ (if (st.procs.getD i default).lastBlockId ≠ -1
                then (st.procs.getD i default).lastBlockId.toNat else 0)), [], true⟩]) j).id ∧
      (wnodeAt (emitOne pp minDelay maxDelay mw now st i).wnodes j).parents =
        (wnodeAt (st.wnodes ++
          [⟨st.wnodes.length, ((st.procs.getD i default).id : Int), now,
            (if (st.procs.getD i default).lastBlockId ≠ -1
              then (st.procs.getD i default).lastBlockId.toNat else 0) ::
            (selectWitnesses st.numUsers st.wnodes (st.procs.getD i default) mw).filter
              (fun w => w ≠ (if (st.procs.getD i default).lastBlockId ≠ -1
                then (st.procs.getD i default).lastBlockId.toNat else 0)), [], true⟩]) j).parents ∧
      (wnodeAt (emitOne pp minDelay maxDelay mw now st i).wnodes j).owner =
        (wnodeAt (st.wnodes ++
          [⟨st.wnodes.length, ((st.procs.getD i default).id : Int), now,
            (if (st.procs.getD i default).lastBlockId ≠ -1
              then (st.procs.getD i default).lastBlockId.toNat else 0) ::
            (selectWitnesses st.numUsers st.wnodes (st.procs.getD i default) mw).filter
              (fun w => w ≠ (if (st.procs.getD i default).lastBlockId ≠ -1
                then (st.procs.getD i default).lastBlockId.toNat else 0)), [], true⟩]) j).owner ∧
      (wnodeAt (emitOne pp minDelay maxDelay mw now st i).wnodes j).timestamp =
        (wnodeAt (st.wnodes ++
          [⟨st.wnodes.length, ((st.procs.getD i default).id : Int), now,
            (if (st.procs.getD i default).lastBlockId ≠ -1
              then (st.procs.getD i default).lastBlockId.toNat else 0) ::
            (selectWitnesses st.numUsers st.wnodes (st.procs.getD i default) mw).filter
              (fun w => w ≠ (if (st.procs.getD i default).lastBlockId ≠ -1
                then (st.procs.getD i default).lastBlockId.toNat else 0)), [], true⟩]) j).timestamp) ∧
    (emitOne pp minDelay maxDelay mw now st i).procs =
      st.procs.set i
        { st.procs.getD i default with
          lastBlockId := (st.wnodes.length : Int)
          knownBlocks := insert st.wnodes.length (st.procs.getD i default).knownBlocks } ∧
    (emitOne pp minDelay maxDelay mw now st i).numUsers = st.numUsers := by
  simp only [emitOne]
  rw [if_pos hr]
  set pr := st.procs.getD i default with hpr
  set ownParent : ℕ := if pr.lastBlockId ≠ -1 then pr.lastBlockId.toNat else 0 with hop
  set witnesses := selectWitnesses st.numUsers st.wnodes pr mw with hwit
  set parents := ownParent :: witnesses.filter (fun w => w ≠ ownParent) with hpar
  set newId := st.wnodes.length with hnew
  set node : WNode := ⟨newId, (pr.id : Int), now, parents, [], true⟩ with hnode
  set base := st.wnodes ++ [node] with hbase
  set wl := parents.foldl (linkParent newId) (base, st.globalLeaves) with hwl
  obtain ⟨hw, hp, hg, hn⟩ := wbroadcastNode_frame newId pr.id minDelay maxDelay now
    { st with
      wnodes := wl.1.set newId
        (let n := wl.1.getD newId default; { n with isLeaf := true })
      globalLeaves := insert newId wl.2
      procs := st.procs.set i
        { pr with lastBlockId := (newId : Int), knownBlocks := insert newId pr.knownBlocks }
      rng := (st.rng.uniform_double 0 1).2 }
  rw [hw, hp, hn]
  obtain ⟨hflen, hffields⟩ := foldl_linkParent_frame newId parents (base, st.globalLeaves)
  have hbaselen : base.length = st.wnodes.length + 1 := by rw [hbase]; simp
  refine ⟨?_, ?_, rfl, rfl⟩
  · show (wl.1.set newId _).length = st.wnodes.length + 1
    rw [List.length_set, hflen, hbaselen]
  · intro j
    show ((wl.1.set newId _).getD j default).id = (wnodeAt base j).id ∧
      ((wl.1.set newId _).getD j default).parents = (wnodeAt base j).parents ∧
      ((wl.1.set newId _).getD j default).owner = (wnodeAt base j).owner ∧
      ((wl.1.set newId _).getD j default).timestamp = (wnodeAt base j).timestamp
    obtain ⟨a, b, c, d⟩ := set_fields_frame wl.1 newId
      (let n := wl.1.getD newId default; { n with isLeaf := true }) rfl rfl rfl rfl j
    obtain ⟨a', b', c', d'⟩ := hffields j
    exact ⟨a.trans a', b.trans b', c.trans c', d.trans d'⟩

end Witness

namespace Witness

theorem emitOne_numUsers (pp minDelay maxDelay : ℚ) (mw : ℕ) (now : ℚ) (st : WState)
    (i : ℕ) : (emitOne pp minDelay maxDelay mw now st i).numUsers = st.numUsers := by
  by_cases hr : (st.rng.uniform_double 0 1).1 < pp
  · exact (wEmit_arena pp minDelay maxDelay mw now st i hr).2.2.2
  · simp only [emitOne]
    rw [if_neg hr]

theorem wInv_emitOne (pp minDelay maxDelay : ℚ) (mw : ℕ) (now : ℚ) (st : WState) (i : ℕ)
    (h : WInv st) (hnow : 0 ≤ now) (hi : i < st.procs.length) :
    WInv (emitOne pp minDelay maxDelay mw now st i) := by
  obtain ⟨hpos, hids, hgen, hplt, hts, hlen, hprocs⟩ := h
  by_cases hr : (st.rng.uniform_double 0 1).1 < pp
  · obtain ⟨hL, hF, hP, hN⟩ := wEmit_arena pp minDelay maxDelay mw now st i hr
    set pr := st.procs.getD i default with hpr
    set ownParent : ℕ := if pr.lastBlockId ≠ -1 then pr.lastBlockId.toNat else 0 with hop
    set witnesses := selectWitnesses st.numUsers st.wnodes pr mw with hwit
    set parents := ownParent :: witnesses.filter (fun w => w ≠ ownParent) with hpar
    set node : WNode := ⟨st.wnodes.length, (pr.id : Int), now, parents, [], true⟩ with hnode
    have hts' : ∀ b, b < st.wnodes.length → -1 < (wnodeAt st.wnodes b).timestamp := by
      intro b hb
      have := hts b hb
      linarith
    have hwitspec := selectWitnesses_spec st.numUsers st.wnodes pr mw hts'
    have hopbound : ownParent < st.wnodes.length := by
      rw [hop]
      by_cases hlb : pr.lastBlockId ≠ -1
      · rw [if_pos hlb]
        rcases (hprocs i hi).2.1 with hm1 | ⟨_, hb⟩
        · exact absurd hm1 hlb
        · exact hb
      · rw [if_neg hlb]
        exact hpos
    have hparbound : ∀ p ∈ parents, p < st.wnodes.length := by
      intro p hp
      rcases List.mem_cons.mp hp with rfl | hp
      · exact hopbound
      · exact (hwitspec.2.1 p (List.mem_filter.mp hp).1).1
    have hbasef : ∀ j, j < st.wnodes.length →
        wnodeAt (st.wnodes ++ [node]) j = wnodeAt st.wnodes j :=
      fun j hj => wnodeAt_append_lt st.wnodes node j hj
    have hbasel : wnodeAt (st.wnodes ++ [node]) st.wnodes.length = node :=
      wnodeAt_append_self st.wnodes node
    refine ⟨by omega, ?_, ?_, ?_, ?_, ?_, ?_⟩
    · intro j hj
      rw [hL] at hj
      rw [(hF j).1]
      rcases Nat.lt_or_ge j st.wnodes.length with hjl | hjl
      · rw [hbasef j hjl]
        exact hids j hjl
      · have : j = st.wnodes.length := by omega
        subst this
        rw [hbasel]
    · rw [(hF 0).2.1, hbasef 0 hpos]
      exact hgen
    · intro j hj p hp
      rw [hL] at hj
      rw [(hF j).2.1] at hp
      rcases Nat.lt_or_ge j st.wnodes.length with hjl | hjl
      · rw [hbasef j hjl] at hp
        exact hplt j hjl p hp
      · have : j = st.wnodes.length := by omega
        subst this
        rw [hbasel] at hp
        exact lt_of_lt_of_le (hparbound p hp) (le_refl _)
    · intro j hj
      rw [hL] at hj
      rw [(hF j).2.2.2]
      rcases Nat.lt_or_ge j st.wnodes.length with hjl | hjl
      · rw [hbasef j hjl]
        exact hts j hjl
      · have : j = st.wnodes.length := by omega
        subst this
        rw [hbasel]
        exact hnow
    · rw [hP, hN, List.length_set]
      exact hlen
    · intro j hj
      rw [hP, List.length_set] at hj
      rw [hP]
      by_cases hij : i = j
      · subst hij
        rw [getD_set_self _ _ _ _ hi]
        refine ⟨(hprocs i hi).1, Or.inr ⟨Int.ofNat_nonneg _, ?_⟩, ?_⟩
        · rw [hL]
          simp only [Int.toNat_ofNat]
          omega
        · intro n hn
          rw [hL]
          rcases Finset.mem_insert.mp hn with rfl | hn
          · omega
          · have := (hprocs i hi).2.2 n hn
            omega
      · rw [getD_set_ne _ _ _ _ _ hij]
        refine ⟨(hprocs j hj).1, ?_, ?_⟩
        · rcases (hprocs j hj).2.1 with hm1 | ⟨ha, hb⟩
          · exact Or.inl hm1
          · exact Or.inr ⟨ha, by rw [hL]; omega⟩
        · intro n hn
          have := (hprocs j hj).2.2 n hn
          rw [hL]
          omega
  · simp only [emitOne]
    rw [if_neg hr]
    exact ⟨hpos, hids, hgen, hplt, hts, hlen, hprocs⟩

theorem wApplyMessage_inv (wlen : ℕ) (procs : List WProcess) (m : WMessage)
    (h : ∀ j, j < procs.length →
      (procs.getD j default).id = j ∧
      ((procs.getD j default).lastBlockId = -1 ∨
        (0 ≤ (procs.getD j default).lastBlockId ∧
          (procs.getD j default).lastBlockId.toNat < wlen)) ∧
      (∀ n ∈ (procs.getD j default).knownBlocks, n < wlen)) :
    (applyMessage wlen procs m).length = procs.length ∧
    (∀ j, j < procs.length →
      ((applyMessage wlen procs m).getD j default).id = j ∧
      (((applyMessage wlen procs m).getD j default).lastBlockId = -1 ∨
        (0 ≤ ((applyMessage wlen procs m).getD j default).lastBlockId ∧
          ((applyMessage wlen procs m).getD j default).lastBlockId.toNat < wlen)) ∧
      (∀ n ∈ ((applyMessage wlen procs m).getD j default).knownBlocks, n < wlen)) := by
  rw [applyMessage]
  by_cases hn : m.nodeId < wlen
  · rw [if_pos hn]
    by_cases hr : m.receiverId < procs.length
    · refine ⟨List.length_set _ _ _, ?_⟩
      intro j hj
      by_cases hrj : m.receiverId = j
      · subst hrj
        rw [getD_set_self _ _ _ _ hr]
        obtain ⟨a, b, c⟩ := h _ hr
        refine ⟨a, b, ?_⟩
        intro n hnn
        rw [processReceiveBlock] at hnn
        simp only at hnn
        rcases Finset.mem_insert.mp hnn with rfl | hnn
        · exact hn
        · exact c n hnn
      · rw [getD_set_ne _ _ _ _ _ hrj]
        exact h j hj
    · rw [List.set_eq_of_length_le (le_of_not_lt hr)]
      exact ⟨rfl, h⟩
  · rw [if_neg hn]
    exact ⟨rfl, h⟩

theorem foldl_wApplyMessage_inv (wlen : ℕ) :
    ∀ (l : List WMessage) (procs : List WProcess),
      (∀ j, j < procs.length →
        (procs.getD j default).id = j ∧
        ((procs.getD j default).lastBlockId = -1 ∨
          (0 ≤ (procs.getD j default).lastBlockId ∧
            (procs.getD j default).lastBlockId.toNat < wlen)) ∧
        (∀ n ∈ (procs.getD j default).knownBlocks, n < wlen)) →
      (l.foldl (applyMessage wlen) procs).length = procs.length ∧
      (∀ j, j < procs.length →
        ((l.foldl (applyMessage wlen) procs).getD j default).id = j ∧
        (((l.foldl (applyMessage wlen) procs).getD j default).lastBlockId = -1 ∨
          (0 ≤ ((l.foldl (applyMessage wlen) procs).getD j default).lastBlockId ∧
            ((l.foldl (applyMessage wlen) procs).getD j default).lastBlockId.toNat < wlen)) ∧
        (∀ n ∈ ((l.foldl (applyMessage wlen) procs).getD j default).knownBlocks, n < wlen)) := by
  intro l
  induction l with
  | nil => intro procs h; exact ⟨rfl, h⟩
  | cons m ms ih =>
    intro procs h
    rw [List.foldl_cons]
    obtain ⟨h1, h2⟩ := wApplyMessage_inv wlen procs m h
    obtain ⟨g1, g2⟩ := ih (applyMessage wlen procs m) (fun j hj => h2 j (h1 ▸ hj))
    exact ⟨g1.trans h1, fun j hj => g2 j (h1.symm ▸ hj)⟩

theorem wInv_foldl_emitOne (pp minDelay maxDelay : ℚ) (mw : ℕ) (now : ℚ)
    (hnow : 0 ≤ now) :
    ∀ (l : List ℕ) (s : WState), (∀ i ∈ l, i < s.numUsers) → WInv s →
      WInv (l.foldl (emitOne pp minDelay maxDelay mw now) s) := by
  intro l
  induction l with
  | nil => intro s _ h; exact h
  | cons i is ih =>
    intro s hmem h
    rw [List.foldl_cons]
    apply ih
    · intro j hj
      rw [emitOne_numUsers]
      exact hmem j (List.mem_cons_of_mem i hj)
    · exact wInv_emitOne pp minDelay maxDelay mw now s i h hnow
        (by rw [h.2.2.2.2.2.1]; exact hmem i (List.mem_cons_self i is))

theorem wInv_simStep (pp minDelay maxDelay : ℚ) (mw : ℕ) (now : ℚ) (s : WState)
    (h : WInv s) (hnow : 0 ≤ now) :
    WInv (simStep pp minDelay maxDelay mw now s).1 := by
  obtain ⟨hpos, hids, hgen, hplt, hts, hlen, hprocs⟩ := h
  rw [simStep]
  apply wInv_foldl_emitOne pp minDelay maxDelay mw now hnow _ _
    (fun i hi => List.mem_range.mp hi)
  obtain ⟨h1, h2⟩ := foldl_wApplyMessage_inv s.wnodes.length
    (s.pq.filter (fun m => decide (m.deliverTime ≤ now))) s.procs hprocs
  rw [drain]
  refine ⟨hpos, hids, hgen, hplt, hts, ?_, ?_⟩ <;> dsimp only
  · rw [h1]; exact hlen
  · exact fun j hj => h2 j (h1 ▸ hj)

theorem wInv_initState (numUsers : ℕ) (rng : RNG) : WInv (initState numUsers rng) := by
  refine ⟨by simp [initState], ?_, ?_, ?_, ?_, ?_, ?_⟩
  · intro i hi
    simp [initState] at hi
    subst hi
    rfl
  · rfl
  · intro i hi p hp
    simp [initState] at hi
    subst hi
    simp [wnodeAt, initState, List.getD] at hp
  · intro i hi
    simp [initState] at hi
    subst hi
    norm_num [wnodeAt, initState, List.getD]
  · simp [initState]
  · intro j hj
    simp [initState] at hj
    have hp : (initState numUsers rng).procs = (List.range numUsers).map
        (fun i => (⟨i, -1, {0}⟩ : WProcess)) := rfl
    rw [hp, getD_map_range _ _ _ _ hj]
    refine ⟨rfl, Or.inl rfl, ?_⟩
    intro n hn
    simp at hn
    subst hn
    simp [initState]

/-- Every reachable witness state satisfies the master invariant. -/
theorem reachable_WInv (pp minDelay maxDelay : ℚ) (mw : ℕ) (s : WState)
    (h : Reachable pp minDelay maxDelay mw s) : WInv s := by
  induction h with
  | init numUsers rng => exact wInv_initState numUsers rng
  | step s now hnow _ ih => exact wInv_simStep pp minDelay maxDelay mw now s ih hnow

end Witness

/-- C2: in both modes, over every reachable state, every parent id of every
node in the arena is strictly less than the node's own id, and the genesis
node (id 0) has an empty parent list. -/
theorem acyclicity_invariant :
    (∀ (C : Tangle.TangleConfig) (s : Tangle.SimState), Tangle.Reachable C s →
      (∀ i, i < s.nodes.length →
        ∀ p ∈ (Tangle.nodeAt s.nodes i).parents, p < (Tangle.nodeAt s.nodes i).id) ∧
      (Tangle.nodeAt s.nodes 0).parents = []) ∧
    (∀ (pp minDelay maxDelay : ℚ) (mw : ℕ) (t : Witness.WState),
      Witness.Reachable pp minDelay maxDelay mw t →
      (∀ i, i < t.wnodes.length →
        ∀ p ∈ (Witness.wnodeAt t.wnodes i).parents, p < (Witness.wnodeAt t.wnodes i).id) ∧
      (Witness.wnodeAt t.wnodes 0).parents = []) := by
  constructor
  · intro C s hs
    obtain ⟨G, _, _, _, _⟩ := Tangle.reachable_AInv C s hs
    constructor
    · intro i hi p hp
      rw [G.2.1 i hi]
      exact G.2.2.2.1 i hi p hp
    · exact G.2.2.1
  · intro pp minDelay maxDelay mw t ht
    obtain ⟨hpos, hids, hgen, hplt, _, _, _⟩ := Witness.reachable_WInv pp minDelay maxDelay mw t ht
    constructor
    · intro i hi p hp
      rw [hids i hi]
      exact hplt i hi p hp
    · exact hgen

/-- C2 witness: genesis has no parents in the initial states of both modes. -/
theorem acyclicity_invariant_witness :
    (Tangle.nodeAt (Tangle.initState cfg0.numProcesses zeroRng).nodes 0).parents = [] ∧
    (Witness.wnodeAt (Witness.initState 1 zeroRng).wnodes 0).parents = [] :=
  ⟨(acyclicity_invariant.1 cfg0 (Tangle.initState cfg0.numProcesses zeroRng)
      (Tangle.Reachable.init zeroRng)).2,
   (acyclicity_invariant.2 0 1 5 3 (Witness.initState 1 zeroRng)
      (Witness.Reachable.init 1 zeroRng)).2⟩

/-- C4: in mode B, when a posting draw succeeds for user `i`, the created
block's parent list is exactly the own-chain parent (the user's last block,
or genesis for a first block) followed by the selected witnesses with any
witness equal to the own-chain parent excluded; the witnesses are at most
`maxWitnesses` blocks, each a known block of a non-genesis owner other than
the poster and most recent among that owner's known blocks, listed by
non-increasing timestamp; with `maxWitnesses = 0` the block has exactly its
own-chain parent. -/
theorem witness_block_parents (pp minDelay maxDelay : ℚ) (mw : ℕ) (now : ℚ)
    (st : Witness.WState) (i : ℕ)
    (hreach : Witness.Reachable pp minDelay maxDelay mw st)
    (hr : (st.rng.uniform_double 0 1).1 < pp) :
    ((Witness.wnodeAt (Witness.emitOne pp minDelay maxDelay mw now st i).wnodes
        st.wnodes.length).parents =
      (if (st.procs.getD i default).lastBlockId ≠ -1
        then (st.procs.getD i default).lastBlockId.toNat else 0) ::
      (Witness.selectWitnesses st.numUsers st.wnodes (st.procs.getD i default) mw).filter
        (fun w => w ≠ (if (st.procs.getD i default).lastBlockId ≠ -1
          then (st.procs.getD i default).lastBlockId.toNat else 0))) ∧
    (Witness.selectWitnesses st.numUsers st.wnodes (st.procs.getD i default) mw).length
      ≤ mw ∧
    (∀ w ∈ Witness.selectWitnesses st.numUsers st.wnodes (st.procs.getD i default) mw,
      w < st.wnodes.length ∧ w ∈ (st.procs.getD i default).knownBlocks ∧
      0 ≤ (Witness.wnodeAt st.wnodes w).owner ∧
      (Witness.wnodeAt st.wnodes w).owner ≠ ((st.procs.getD i default).id : Int) ∧
      (∀ b ∈ (st.procs.getD i default).knownBlocks, b < st.wnodes.length →
        (Witness.wnodeAt st.wnodes b).owner = (Witness.wnodeAt st.wnodes w).owner →
        (Witness.wnodeAt st.wnodes b).timestamp ≤
          (Witness.wnodeAt st.wnodes w).timestamp)) ∧
    (Witness.selectWitnesses st.numUsers st.wnodes (st.procs.getD i default) mw).Pairwise
      (fun a b => (Witness.wnodeAt st.wnodes b).timestamp ≤
        (Witness.wnodeAt st.wnodes a).timestamp) ∧
    (mw = 0 →
      (Witness.wnodeAt (Witness.emitOne pp minDelay maxDelay mw now st i).wnodes
        st.wnodes.length).parents =
      [if (st.procs.getD i default).lastBlockId ≠ -1
        then (st.procs.getD i default).lastBlockId.toNat else 0]) := by
  obtain ⟨_, _, _, _, hts, _, _⟩ := Witness.reachable_WInv pp minDelay maxDelay mw st hreach
  have hts' : ∀ b, b < st.wnodes.length → -1 < (Witness.wnodeAt st.wnodes b).timestamp := by
    intro b hb
    have := hts b hb
    linarith
  obtain ⟨hL, hF, hP, hN⟩ := Witness.wEmit_arena pp minDelay maxDelay mw now st i hr
  obtain ⟨s1, s2, s3⟩ := Witness.selectWitnesses_spec st.numUsers st.wnodes
    (st.procs.getD i default) mw hts'
  have hparents : (Witness.wnodeAt (Witness.emitOne pp minDelay maxDelay mw now st i).wnodes
      st.wnodes.length).parents =
      (if (st.procs.getD i default).lastBlockId ≠ -1
        then (st.procs.getD i default).lastBlockId.toNat else 0) ::
      (Witness.selectWitnesses st.numUsers st.wnodes (st.procs.getD i default) mw).filter
        (fun w => w ≠ (if (st.procs.getD i default).lastBlockId ≠ -1
          then (st.procs.getD i default).lastBlockId.toNat else 0)) := by
    rw [(hF st.wnodes.length).2.1, Witness.wnodeAt_append_self]
  refine ⟨hparents, s1, ?_, s3, ?_⟩
  · intro w hw
    obtain ⟨g1, g2, g3, g4, _, g6⟩ := s2 w hw
    exact ⟨g1, g2, g3, g4, g6⟩
  · intro hmw
    subst hmw
    rw [hparents, Witness.selectWitnesses_zero]
    rfl

/-- C4 witness: the first block of the single user in a one-user run with
`maxWitnesses = 0` has exactly the genesis parent. -/
theorem witness_block_parents_witness :
    (0 : ℚ) ≤ 1 ∧ ((zeroRng.uniform_double 0 1).1 < (1 : ℚ)) ∧
    (Witness.wnodeAt (Witness.emitOne 1 1 5 0 0 (Witness.initState 1 zeroRng) 0).wnodes
        (Witness.initState 1 zeroRng).wnodes.length).parents =
      [if ((Witness.initState 1 zeroRng).procs.getD 0 default).lastBlockId ≠ -1
        then ((Witness.initState 1 zeroRng).procs.getD 0 default).lastBlockId.toNat else 0] :=
  ⟨by norm_num, by norm_num [RNG.uniform_double, zeroRng],
    (witness_block_parents 1 1 5 0 0 (Witness.initState 1 zeroRng) 0
      (Witness.Reachable.init 1 zeroRng)
      (by norm_num [RNG.uniform_double, Witness.initState, zeroRng])).2.2.2.2 rfl⟩

namespace Tangle

theorem runLoop_length (C : TangleConfig) :
    ∀ (ts : List ℚ) (s : SimState), (runLoop C ts s).1.length = ts.length := by
  intro ts
  induction ts with
  | nil => intro s; rfl
  | cons t ts ih =>
    intro s
    rw [runLoop]
    show ((simStep C t s).2 :: (runLoop C ts (simStep C t s).1).1).length = ts.length + 1
    rw [List.length_cons, ih]

/-- Every emitted row is the metrics record of a reachable state at its step
time. -/
theorem runLoop_rows (C : TangleConfig) :
    ∀ (ts : List ℚ) (s : SimState), Reachable C s →
      ∀ row ∈ (runLoop C ts s).1, ∃ s' t, Reachable C s' ∧
        row = metricsRow C.numProcesses s' t := by
  intro ts
  induction ts with
  | nil => intro s _ row hrow; exact absurd hrow (by simp [runLoop])
  | cons t ts ih =>
    intro s hs row hrow
    rw [runLoop] at hrow
    have hrow' : row = (simStep C t s).2 ∨ row ∈ (runLoop C ts (simStep C t s).1).1 := by
      simpa using hrow
    rcases hrow' with rfl | hrow'
    · exact ⟨(simStep C t s).1, t, Reachable.step s t hs, rfl⟩
    · exact ih (simStep C t s).1 (Reachable.step s t hs) row hrow'

theorem metricsRow_ratio (n : ℕ) (s : SimState) (t : ℚ) :
    (metricsRow n s t).tipRatio =
      (if (metricsRow n s t).totalNodes = 0 then 0
        else ((metricsRow n s t).globalTips : ℚ) / ((metricsRow n s t).totalNodes : ℚ)) := by
  rw [metricsRow]
  by_cases hz : s.nodes.length = 0
  · simp [hz]
  · simp [hz, Nat.pos_of_ne_zero hz]

end Tangle

namespace Witness

theorem wRunLoop_length (postProbPerStep minDelay maxDelay : ℚ) (maxWitnesses : ℕ) :
    ∀ (ts : List ℚ) (s : WState),
      (runLoop postProbPerStep minDelay maxDelay maxWitnesses ts s).1.length = ts.length := by
  intro ts
  induction ts with
  | nil => intro s; rfl
  | cons t ts ih =>
    intro s
    rw [runLoop]
    show ((simStep postProbPerStep minDelay maxDelay maxWitnesses t s).2 ::
      (runLoop postProbPerStep minDelay maxDelay maxWitnesses ts
        (simStep postProbPerStep minDelay maxDelay maxWitnesses t s).1).1).length =
      ts.length + 1
    rw [List.length_cons, ih]

end Witness

/-- C8: if the output path cannot be opened the run aborts before the
simulation loop and emits nothing; otherwise it completes and emits exactly
one metrics row per timestep — in both modes. -/
theorem output_abort_or_complete :
    (∀ (numProcesses : ℕ) (lambdaPerProcess simDuration minDelay maxDelay : ℚ)
      (mode : TipSelectionMode) (securityBias alphaHigh : ℚ) (expFn : ℚ → ℚ) (rng : RNG),
      Tangle.runTangleSimulation numProcesses lambdaPerProcess simDuration minDelay maxDelay
        mode securityBias alphaHigh expFn rng false = none) ∧
    (∀ (numProcesses : ℕ) (lambdaPerProcess simDuration minDelay maxDelay : ℚ)
      (mode : TipSelectionMode) (securityBias alphaHigh : ℚ) (expFn : ℚ → ℚ) (rng : RNG),
      ∃ rows, Tangle.runTangleSimulation numProcesses lambdaPerProcess simDuration minDelay
          maxDelay mode securityBias alphaHigh expFn rng true =
          some (Tangle.tangleCsvHeader, rows) ∧
        rows.length = numSteps simDuration) ∧
    (∀ (numUsers : ℕ) (postProbPerStep simDuration minDelay maxDelay : ℚ)
      (maxWitnesses : ℕ) (rng : RNG),
      Witness.runWitnessSimulation numUsers postProbPerStep simDuration minDelay maxDelay
        maxWitnesses rng false = none) ∧
    (∀ (numUsers : ℕ) (postProbPerStep simDuration minDelay maxDelay : ℚ)
      (maxWitnesses : ℕ) (rng : RNG),
      ∃ rows, Witness.runWitnessSimulation numUsers postProbPerStep simDuration minDelay
          maxDelay maxWitnesses rng true = some (Witness.witnessCsvHeader, rows) ∧
        rows.length = numSteps simDuration) := by
  refine ⟨?_, ?_, ?_, ?_⟩
  · intro numProcesses lambdaPerProcess simDuration minDelay maxDelay mode securityBias
      alphaHigh expFn rng
    rfl
  · intro numProcesses lambdaPerProcess simDuration minDelay maxDelay mode securityBias
      alphaHigh expFn rng
    refine ⟨_, rfl, ?_⟩
    rw [Tangle.runLoop_length]
    simp [stepTimes]
  · intro numUsers postProbPerStep simDuration minDelay maxDelay maxWitnesses rng
    rfl
  · intro numUsers postProbPerStep simDuration minDelay maxDelay maxWitnesses rng
    refine ⟨_, rfl, ?_⟩
    rw [Witness.wRunLoop_length]
    simp [stepTimes]

/-- C5: the mode A output opens with exactly the claimed header line, and
every data row is the metrics record of a reachable state, in which
`tip_ratio` is `global_tips / total_nodes` (0 when there are no nodes) and
`messages_sent` counts exactly the broadcast events scheduled since the run
started (the ghost log `scheduled`). -/
theorem tangle_metrics_shape :
    (Tangle.tangleCsvHeader =
      "time,global_tips,avg_local_tips,min_local_tips,max_local_tips,total_nodes,tip_ratio,messages_sent") ∧
    (∀ (numProcesses : ℕ) (lambdaPerProcess simDuration minDelay maxDelay : ℚ)
      (mode : TipSelectionMode) (securityBias alphaHigh : ℚ) (expFn : ℚ → ℚ) (rng : RNG)
      (outputOk : Bool) (hdr : String) (rows : List Tangle.MetricsRow),
      Tangle.runTangleSimulation numProcesses lambdaPerProcess simDuration minDelay maxDelay
        mode securityBias alphaHigh expFn rng outputOk = some (hdr, rows) →
      hdr = Tangle.tangleCsvHeader ∧
      ∀ row ∈ rows,
        row.tipRatio = (if row.totalNodes = 0 then 0
          else (row.globalTips : ℚ) / (row.totalNodes : ℚ)) ∧
        ∃ s t, Tangle.Reachable (Tangle.mkConfig numProcesses lambdaPerProcess minDelay
            maxDelay mode securityBias alphaHigh expFn) s ∧
          row = Tangle.metricsRow numProcesses s t ∧
          row.messagesSent = s.scheduled.length) := by
  refine ⟨rfl, ?_⟩
  intro numProcesses lambdaPerProcess simDuration minDelay maxDelay mode securityBias
    alphaHigh expFn rng outputOk hdr rows hrun
  cases outputOk with
  | false => exact absurd hrun (by rw [Tangle.runTangleSimulation]; simp)
  | true =>
    rw [Tangle.runTangleSimulation] at hrun
    simp only [if_pos] at hrun
    have hhdr : hdr = Tangle.tangleCsvHeader := by
      have := congrArg (fun o => Option.map Prod.fst o) hrun
      simpa using this.symm
    have hrows : rows = (Tangle.runLoop
        (Tangle.mkConfig numProcesses lambdaPerProcess minDelay maxDelay mode securityBias
          alphaHigh expFn) (stepTimes simDuration)
        (Tangle.initState numProcesses rng)).1 := by
      have := congrArg (fun o => Option.map Prod.snd o) hrun
      simpa using this.symm
    refine ⟨hhdr, ?_⟩
    intro row hrow
    rw [hrows] at hrow
    obtain ⟨s, t, hs, hrweq⟩ := Tangle.runLoop_rows _ (stepTimes simDuration)
      (Tangle.initState numProcesses rng) (Tangle.Reachable.init rng) row hrow
    have hnum : (Tangle.mkConfig numProcesses lambdaPerProcess minDelay maxDelay mode
        securityBias alphaHigh expFn).numProcesses = numProcesses := rfl
    rw [hnum] at hrweq
    refine ⟨?_, s, t, hs, hrweq, ?_⟩
    · rw [hrweq]
      exact Tangle.metricsRow_ratio numProcesses s t
    · obtain ⟨_, _, _, _, hmsg⟩ := Tangle.reachable_AInv _ s hs
      rw [hrweq]
      show s.messagesSent = s.scheduled.length
      exact hmsg

/-- C5 witness: a one-step run, with the header and the row facts
instantiated. -/
theorem tangle_metrics_shape_witness :
    Tangle.tangleCsvHeader =
      "time,global_tips,avg_local_tips,min_local_tips,max_local_tips,total_nodes,tip_ratio,messages_sent" ∧
    ((Tangle.tangleCsvHeader = Tangle.tangleCsvHeader) ∧
      ∀ row ∈ (Tangle.runLoop (Tangle.mkConfig 1 0 1 5 TipSelectionMode.RANDOM_ONLY (7/10)
          (1/1000) (fun _ => 1)) (stepTimes 0) (Tangle.initState 1 zeroRng)).1,
        row.tipRatio = (if row.totalNodes = 0 then 0
          else (row.globalTips : ℚ) / (row.totalNodes : ℚ)) ∧
        ∃ s t, Tangle.Reachable (Tangle.mkConfig 1 0 1 5 TipSelectionMode.RANDOM_ONLY (7/10)
            (1/1000) (fun _ => 1)) s ∧
          row = Tangle.metricsRow 1 s t ∧
          row.messagesSent = s.scheduled.length) :=
  ⟨tangle_metrics_shape.1,
    tangle_metrics_shape.2 1 0 0 1 5 TipSelectionMode.RANDOM_ONLY (7/10) (1/1000)
      (fun _ => 1) zeroRng true Tangle.tangleCsvHeader _ rfl⟩

namespace Tangle

/-- A step with emission probability 0, a single process and an empty queue
changes nothing but the RNG cursor and emits the metrics of the unchanged
state. -/
theorem quiet_step (C : TangleConfig) (hn : C.numProcesses = 1) (hp : C.txProb = 0)
    (t : ℚ) (s : SimState) (hpq : s.pq = []) (hv : s.rng.Valid) :
    simStep C t s =
      ({ s with pq := [], rng := (s.rng.uniform_double 0 1).2 },
        metricsRow C.numProcesses s t) := by
  have h0 : 0 ≤ (s.rng.uniform_double 0 1).1 :=
    (RNG.valid_uniform_double s.rng hv 0 1 (by norm_num)).1
  have hne : ¬ (s.rng.uniform_double 0 1).1 < C.txProb := by
    rw [hp]
    exact not_lt.mpr h0
  rw [simStep, hn]
  have hdrain : drain s.nodes s.procs s.pq t = (s.procs, []) := by
    rw [hpq]
    rfl
  rw [hdrain]
  show ((List.range 1).foldl (emitOne C t) { s with procs := s.procs, pq := [] },
      metricsRow 1 ((List.range 1).foldl (emitOne C t) { s with procs := s.procs, pq := [] }) t)
    = _
  have hrange : List.range 1 = [0] := rfl
  rw [hrange]
  show (emitOne C t { s with procs := s.procs, pq := [] } 0,
      metricsRow 1 (emitOne C t { s with procs := s.procs, pq := [] } 0) t) = _
  have hemit : emitOne C t { s with procs := s.procs, pq := [] } 0 =
      { s with pq := [], rng := (s.rng.uniform_double 0 1).2 } := by
    simp only [emitOne]
    rw [if_neg hne]
  rw [hemit]
  rfl

/-- With emission probability 0 and one process, every row of the loop is the
metrics record of the initial state at its step time. -/
theorem quiet_runLoop (C : TangleConfig) (hn : C.numProcesses = 1) (hp : C.txProb = 0) :
    ∀ (ts : List ℚ) (s : SimState), s.pq = [] → s.rng.Valid →
      (runLoop C ts s).1 = ts.map (fun t => metricsRow C.numProcesses s t) := by
  intro ts
  induction ts with
  | nil => intro s _ _; rfl
  | cons t ts ih =>
    intro s hpq hv
    rw [runLoop, quiet_step C hn hp t s hpq hv]
    show metricsRow C.numProcesses s t ::
        (runLoop C ts { s with pq := [], rng := (s.rng.uniform_double 0 1).2 }).1 = _
    rw [ih { s with pq := [], rng := (s.rng.uniform_double 0 1).2 } rfl hv]
    rfl

theorem metricsRow_initState (rng : RNG) (t : ℚ) :
    metricsRow 1 (initState 1 rng) t = ⟨t, 1, 1, 1, 1, 1, 1, 0⟩ := by
  show metricsRow 1
    { nodes := [⟨0, 0, 0, [], []⟩]
      globalTips := {0}
      procs := [⟨0, {0}, {0}⟩]
      pq := []
      messagesSent := 0
      scheduled := []
      rng := rng } t = ⟨t, 1, 1, 1, 1, 1, 1, 0⟩
  rw [metricsRow]
  norm_num

end Tangle

/-- C7: a mode A run with one process, emission probability 0 and duration 2
produces, for every valid stream (hence every seed), exactly three rows at
times 0, 1, 2, each with one global tip, one node, tip ratio 1 and zero
messages sent. -/
theorem tangle_quiescent_run (minDelay maxDelay securityBias alphaHigh : ℚ)
    (mode : TipSelectionMode) (expFn : ℚ → ℚ) (rng : RNG) (hv : rng.Valid) :
    Tangle.runTangleSimulation 1 0 2 minDelay maxDelay mode securityBias alphaHigh
      expFn rng true =
      some (Tangle.tangleCsvHeader,
        [⟨0, 1, 1, 1, 1, 1, 1, 0⟩, ⟨1, 1, 1, 1, 1, 1, 1, 0⟩, ⟨2, 1, 1, 1, 1, 1, 1, 0⟩]) := by
  rw [Tangle.runTangleSimulation]
  simp only [if_pos]
  set C := Tangle.mkConfig 1 0 minDelay maxDelay mode securityBias alphaHigh expFn with hC
  have hn : C.numProcesses = 1 := rfl
  have hp : C.txProb = 0 := by
    rw [hC, Tangle.mkConfig]
    norm_num
  have htimes : stepTimes 2 = [0, 1, 2] := by
    have h3 : numSteps 2 = 3 := by
      rw [numSteps, if_pos (by norm_num)]
      norm_num
    rw [stepTimes, h3]
    rfl
  rw [htimes, Tangle.quiet_runLoop C hn hp [0, 1, 2] (Tangle.initState 1 rng) rfl hv]
  rw [hn]
  show some (Tangle.tangleCsvHeader,
    [Tangle.metricsRow 1 (Tangle.initState 1 rng) 0,
     Tangle.metricsRow 1 (Tangle.initState 1 rng) 1,
     Tangle.metricsRow 1 (Tangle.initState 1 rng) 2]) = _
  rw [Tangle.metricsRow_initState rng 0, Tangle.metricsRow_initState rng 1,
    Tangle.metricsRow_initState rng 2]

/-- C7 witness: the same run at the all-zero stream. -/
theorem tangle_quiescent_run_witness :
    Tangle.runTangleSimulation 1 0 2 1 5 TipSelectionMode.HYBRID (7/10) (1/1000)
      (fun _ => 1) zeroRng true =
      some (Tangle.tangleCsvHeader,
        [⟨0, 1, 1, 1, 1, 1, 1, 0⟩, ⟨1, 1, 1, 1, 1, 1, 1, 0⟩, ⟨2, 1, 1, 1, 1, 1, 1, 0⟩]) :=
  tangle_quiescent_run 1 5 (7/10) (1/1000) TipSelectionMode.HYBRID (fun _ => 1)
    zeroRng zeroRng_valid

theorem RNG.uniform_double_self (r : RNG) (a : ℚ) : (r.uniform_double a a).1 = a := by
  simp [RNG.uniform_double]

namespace Tangle

theorem foldl_broadcastStep_pq_fixed (nodeId senderId : ℕ) (d now : ℚ) :
    ∀ (l : List Process) (st : SimState),
      (l.foldl (broadcastStep nodeId senderId d d now) st).pq =
        st.pq ++ (l.filter (fun p => decide (p.id ≠ senderId))).map
          (fun p => (⟨now + d, p.id, nodeId⟩ : Message)) := by
  intro l
  induction l with
  | nil => intro st; simp
  | cons p ps ih =>
    intro st
    rw [List.foldl_cons]
    by_cases hp : p.id = senderId
    · have hstep : broadcastStep nodeId senderId d d now st p = st := by
        rw [broadcastStep, if_pos hp]
      rw [hstep, ih]
      have hfil : (p :: ps).filter (fun p => decide (p.id ≠ senderId)) =
          ps.filter (fun p => decide (p.id ≠ senderId)) := by
        rw [List.filter_cons]
        simp [hp]
      rw [hfil]
    · have hstep : broadcastStep nodeId senderId d d now st p =
          { st with
            pq := st.pq ++ [⟨now + d, p.id, nodeId⟩]
            rng := (st.rng.uniform_double d d).2
            messagesSent := st.messagesSent + 1
            scheduled := st.scheduled ++ [⟨now + d, p.id, nodeId⟩] } := by
        rw [broadcastStep, if_neg hp]
        simp [RNG.uniform_double_self]
      rw [hstep, ih]
      have hfil : (p :: ps).filter (fun p => decide (p.id ≠ senderId)) =
          p :: ps.filter (fun p => decide (p.id ≠ senderId)) := by
        rw [List.filter_cons]
        simp [hp]
      rw [hfil]
      show (st.pq ++ [⟨now + d, p.id, nodeId⟩]) ++ _ = st.pq ++ _
      rw [List.append_assoc]
      rfl

theorem applyMessage_length (nodes : List TxNode) (procs : List Process) (m : Message) :
    (applyMessage nodes procs m).length = procs.length := by
  rw [applyMessage]
  by_cases hn : m.nodeId < nodes.length
  · rw [if_pos hn]; exact List.length_set _ _ _
  · rw [if_neg hn]

theorem foldl_applyMessage_length (nodes : List TxNode) :
    ∀ (l : List Message) (procs : List Process),
      (l.foldl (applyMessage nodes) procs).length = procs.length := by
  intro l
  induction l with
  | nil => intro procs; rfl
  | cons m ms ih =>
    intro procs
    rw [List.foldl_cons, ih, applyMessage_length]

theorem applyMessage_known_mono (nodes : List TxNode) (procs : List Process) (m : Message)
    (j n : ℕ) (h : n ∈ (procs.getD j default).knownNodes) :
    n ∈ ((applyMessage nodes procs m).getD j default).knownNodes := by
  rw [applyMessage]
  by_cases hn : m.nodeId < nodes.length
  · rw [if_pos hn]
    by_cases hrl : m.receiverId < procs.length
    · by_cases hrj : m.receiverId = j
      · subst hrj
        rw [getD_set_self _ _ _ _ hrl]
        exact processReceiveNode_known_mono nodes _ m.nodeId h
      · rw [getD_set_ne _ _ _ _ _ hrj]
        exact h
    · rw [List.set_eq_of_length_le (le_of_not_lt hrl)]
      exact h
  · rw [if_neg hn]
    exact h

theorem foldl_applyMessage_known_mono (nodes : List TxNode) :
    ∀ (l : List Message) (procs : List Process) (j n : ℕ),
      n ∈ (procs.getD j default).knownNodes →
      n ∈ ((l.foldl (applyMessage nodes) procs).getD j default).knownNodes := by
  intro l
  induction l with
  | nil => intro procs j n h; exact h
  | cons m ms ih =>
    intro procs j n h
    rw [List.foldl_cons]
    exact ih _ j n (applyMessage_known_mono nodes procs m j n h)

theorem foldl_applyMessage_delivers (nodes : List TxNode) :
    ∀ (l : List Message) (procs : List Process) (m : Message), m ∈ l →
      m.nodeId < nodes.length → m.receiverId < procs.length →
      m.nodeId ∈ ((l.foldl (applyMessage nodes) procs).getD m.receiverId default).knownNodes := by
  intro l
  induction l with
  | nil => intro procs m hm; exact absurd hm (List.not_mem_nil m)
  | cons m0 ms ih =>
    intro procs m hm hnn hrr
    rw [List.foldl_cons]
    rcases List.mem_cons.mp hm with rfl | hm
    · apply foldl_applyMessage_known_mono nodes ms _ m.receiverId m.nodeId
      rw [applyMessage, if_pos hnn, getD_set_self _ _ _ _ hrr]
      exact processReceiveNode_mem_known nodes _ m.nodeId
    · exact ih _ m hm hnn (by rw [applyMessage_length]; exact hrr)

theorem foldl_applyMessage_other (nodes : List TxNode) :
    ∀ (l : List Message) (procs : List Process) (recv nodeId : ℕ),
      (∀ m ∈ l, ¬(m.receiverId = recv ∧ m.nodeId = nodeId)) →
      (nodeId ∈ ((l.foldl (applyMessage nodes) procs).getD recv default).knownNodes ↔
        nodeId ∈ (procs.getD recv default).knownNodes) := by
  intro l
  induction l with
  | nil => intro procs recv nodeId _; exact Iff.rfl
  | cons m ms ih =>
    intro procs recv nodeId hno
    rw [List.foldl_cons]
    rw [ih _ recv nodeId (fun m' hm' => hno m' (List.mem_cons_of_mem m hm'))]
    rw [applyMessage]
    by_cases hn : m.nodeId < nodes.length
    · rw [if_pos hn]
      by_cases hrl : m.receiverId < procs.length
      · by_cases hrj : m.receiverId = recv
        · subst hrj
          rw [getD_set_self _ _ _ _ hrl]
          have hne : m.nodeId ≠ nodeId := fun hc => hno m (List.mem_cons_self m ms) ⟨rfl, hc⟩
          by_cases hk : m.nodeId ∈ (procs.getD m.receiverId default).knownNodes
          · rw [processReceiveNode_known nodes _ m.nodeId hk]
          · rw [processReceiveNode_knownNodes nodes _ m.nodeId hk]
            constructor
            · intro hmem
              rcases Finset.mem_insert.mp hmem with hcc | hcc
              · exact absurd hcc.symm hne
              · exact hcc
            · intro hmem
              exact Finset.mem_insert_of_mem hmem
        · rw [getD_set_ne _ _ _ _ _ hrj]
      · rw [List.set_eq_of_length_le (le_of_not_lt hrl)]
    · rw [if_neg hn]

end Tangle

/-- C6: with a degenerate delay range `[d, d]`, a broadcast at time `now`
schedules one delivery event per process other than the sender, all with
delivery time exactly `now + d`; the drain phase leaves every event whose
delivery time is in the future untouched (and the receiver's knowledge of a
node cannot change while no due event carries it), and at any step whose time
has reached the delivery time the event is consumed and the receiver knows
the node. -/
theorem tangle_delay_ordering (d : ℚ) :
    (∀ (nodeId senderId : ℕ) (now : ℚ) (s : Tangle.SimState),
      (Tangle.broadcastNode nodeId senderId d d now s).pq =
        s.pq ++ (s.procs.filter (fun p => decide (p.id ≠ senderId))).map
          (fun p => (⟨now + d, p.id, nodeId⟩ : Tangle.Message))) ∧
    (∀ (nodes : List Tangle.TxNode) (procs : List Tangle.Process)
      (pq : List Tangle.Message) (now : ℚ) (m : Tangle.Message),
      m ∈ pq → now < m.deliverTime → m ∈ (Tangle.drain nodes procs pq now).2) ∧
    (∀ (nodes : List Tangle.TxNode) (procs : List Tangle.Process)
      (pq : List Tangle.Message) (now : ℚ) (recv nodeId : ℕ),
      (∀ m ∈ pq, m.deliverTime ≤ now → ¬(m.receiverId = recv ∧ m.nodeId = nodeId)) →
      (nodeId ∈ (((Tangle.drain nodes procs pq now).1.getD recv default)).knownNodes ↔
        nodeId ∈ ((procs.getD recv default)).knownNodes)) ∧
    (∀ (nodes : List Tangle.TxNode) (procs : List Tangle.Process)
      (pq : List Tangle.Message) (now : ℚ) (m : Tangle.Message),
      m ∈ pq → m.deliverTime ≤ now → m.nodeId < nodes.length →
      m.receiverId < procs.length →
      m ∉ (Tangle.drain nodes procs pq now).2 ∧
      m.nodeId ∈ (((Tangle.drain nodes procs pq now).1.getD m.receiverId default)).knownNodes) := by
  refine ⟨?_, ?_, ?_, ?_⟩
  · intro nodeId senderId now s
    rw [Tangle.broadcastNode]
    exact Tangle.foldl_broadcastStep_pq_fixed nodeId senderId d now s.procs s
  · intro nodes procs pq now m hm hlt
    rw [Tangle.drain]
    refine List.mem_filter.mpr ⟨hm, ?_⟩
    simp [not_le.mpr hlt]
  · intro nodes procs pq now recv nodeId hno
    rw [Tangle.drain]
    apply Tangle.foldl_applyMessage_other nodes _ procs recv nodeId
    intro m hm
    have := List.mem_filter.mp hm
    exact hno m this.1 (of_decide_eq_true this.2)
  · intro nodes procs pq now m hm hle hnn hrr
    constructor
    · rw [Tangle.drain]
      intro hc
      have := (List.mem_filter.mp hc).2
      simp [hle] at this
    · rw [Tangle.drain]
      apply Tangle.foldl_applyMessage_delivers nodes _ procs m _ hnn hrr
      exact List.mem_filter.mpr ⟨hm, decide_eq_true hle⟩

/-- C6 witness: a single due event, at a queue of one message at its delivery
time. -/
theorem tangle_delay_ordering_witness :
    ((⟨5, 0, 0⟩ : Tangle.Message) ∈ ([⟨5, 0, 0⟩] : List Tangle.Message)) ∧
    ((5 : ℚ) ≤ 5) ∧
    ((⟨5, 0, 0⟩ : Tangle.Message) ∉
      (Tangle.drain [⟨0, 0, 0, [], []⟩] [⟨0, {0}, {0}⟩] [⟨5, 0, 0⟩] 5).2 ∧
      (0 : ℕ) ∈ ((Tangle.drain [⟨0, 0, 0, [], []⟩] [⟨0, {0}, {0}⟩]
        [⟨5, 0, 0⟩] 5).1.getD 0 default).knownNodes) :=
  ⟨by simp, by norm_num,
    (tangle_delay_ordering 1).2.2.2 [⟨0, 0, 0, [], []⟩] [⟨0, {0}, {0}⟩] [⟨5, 0, 0⟩] 5
      ⟨5, 0, 0⟩ (by simp) (by norm_num) (by norm_num) (by norm_num)⟩
